import Mathlib

/-!
Shallow embedding of the m-conf configuration parser and its path-addressed
merge tree, together with proofs about the behaviour its specification
describes.

The repository contains two generations of the code:

* `config.py` holds the legacy monolithic `Parser` with its nested
  `Parser.Dict` (the tree), `Parser.Context` (the parsing state machine) and
  the line grammar (regular expressions `LINE`, `SECTION`, `SECTION_NAME`,
  `ASSIGNMENT`, `KEY`, `VALUE`).  It is embedded below under the `MConf`
  namespace (`Val`, `setitem`, `dictAssign`, `OldCtx`, ...).
* `context.py` and `parser.py` form the current architecture.  They import a
  `Config` class from `config.py` that is not present in the sources (only
  its callers and tests are), so the `Config` tree is modelled from the
  specification (definitions marked `Modelled from the spec:`), while
  `Context` is embedded from `context.py` itself.

Python in-place mutation is modelled by threading the updated structure
through every operation; an operation that can raise returns the final state
of the structure next to an `Option` of a structured error (mutations that
happened before the raise are preserved, exactly as in Python), or an
`Except` when the partially-mutated state is irrelevant to every caller.
-/

namespace MConf

/-- Whitespace as recognised by Python's `str.strip()` / `str.isspace` for
the ASCII range (space, tab, newline, carriage return, vertical tab, form
feed).  Non-ASCII whitespace is not modelled; no input in the repository
uses it. -/
def pyIsSpace (c : Char) : Bool :=
  c = ' ' || c = '\t' || c = '\n' || c = '\r' || c = '\x0b' || c = '\x0c'

/-- Model of Python `str.strip()` on the character list: drop leading and
trailing whitespace. -/
def pyStripList (l : List Char) : List Char :=
  ((l.dropWhile pyIsSpace).reverse.dropWhile pyIsSpace).reverse

/-- Model of Python `str.strip()`. -/
def pyStrip (s : String) : String := ⟨pyStripList s.data⟩

/-- Model of Python `str.split('.')` (as used on keys and section paths:
`key.split('.')`).  Always returns at least one piece; empty pieces mark
consecutive, leading or trailing dots. -/
def splitOnDot (s : String) : List String :=
  go s.data [] |>.map (fun l => String.mk l.reverse)
where
  go : List Char → List Char → List (List Char)
    | [], cur => [cur]
    | '.' :: rest, cur => cur :: go rest []
    | c :: rest, cur => go rest (c :: cur)

/-- Join a list of strings with single separating spaces (used to state what
value accumulation across continuation lines produces). -/
def joinSp : List String → String
  | [] => ""
  | [a] => a
  | a :: b :: rest => a ++ " " ++ joinSp (b :: rest)

/-- The five assignment modes, from `AssignmentMode` in
`assignment_mode.py` (and identically `Parser.AssignmentMode` in
`config.py`): `=`, `!=`, `?=`, `+=`, `^=`. -/
inductive AssignmentMode : Type where
  | SET
  | REPLACE
  | FALLBACK
  | APPEND
  | UNION
  deriving DecidableEq, Repr

/-- Model of `AssignmentMode.from_str`: the operator-to-mode table built by
the enum constructor. -/
def modeFromStr : String → Option AssignmentMode
  | "=" => some .SET
  | "!=" => some .REPLACE
  | "?=" => some .FALLBACK
  | "+=" => some .APPEND
  | "^=" => some .UNION
  | _ => none

/-- Structured rendering of every error the embedded code can raise.  The
Python code raises `Parser.Error` with a formatted message (or
`AssertionError` / `KeyError` / `ValueError` from `shlex`); each constructor
carries the data the corresponding message interpolates, so that claims
about what an error names can be stated without string formatting. -/
inductive Err : Type where
  | emptyValue
  | emptyElement
  | shlexValueError
  | assertionError
  | keyError
  | valueAlreadySet (sec key : String)
  | cannotReplaceSection (sec : String)
  | cannotAddToSection (sec : String)
  | duplicateSection (sec : String)
  | keyAlreadyAssignedToValue (path : String)
  | defaultSectionNotAllowed
  | invalidKey (key : String)
  | invalidSectionName (name : String)
  | expectedSection
  | malformedValue
  | unknownOperator
  | pathEmptySegment
  | pathThroughValue (path : String)
  | pathAlreadyAssigned (path : String)
  | sectionValueConflict (path : String)
  | invalidState
  deriving DecidableEq, Repr

/-- Shlex scanner modes (posix mode, `whitespace_split=True`, exactly the
configuration used by `shlex.split`): outside quotes, inside a
single-quoted string, inside a double-quoted string, just after an escape
character outside quotes, just after an escape character inside a
double-quoted string. -/
inductive ShMode : Type where
  | normal
  | single
  | double
  | esc
  | escDouble
  deriving DecidableEq

/-- Model of `shlex.split` (posix): whitespace-separated tokens, `'...'`
literal quoting, `"..."` quoting in which a backslash escapes only `\` and
`"`, and a backslash escaping the next character elsewhere.  `none` models
the `ValueError` raised for an unclosed quote or a trailing escape
character. -/
def shlexGo : List Char → ShMode → List Char → Bool → List String → Option (List String)
  | [], .normal, cur, started, acc =>
      some (acc ++ if started then [String.mk cur.reverse] else [])
  | [], _, _, _, _ => none
  | c :: rest, .normal, cur, started, acc =>
      if pyIsSpace c then
        if started then shlexGo rest .normal [] false (acc ++ [String.mk cur.reverse])
        else shlexGo rest .normal [] false acc
      else if c = '\'' then shlexGo rest .single cur true acc
      else if c = '"' then shlexGo rest .double cur true acc
      else if c = '\\' then shlexGo rest .esc cur true acc
      else shlexGo rest .normal (c :: cur) true acc
  | c :: rest, .single, cur, _, acc =>
      if c = '\'' then shlexGo rest .normal cur true acc
      else shlexGo rest .single (c :: cur) true acc
  | c :: rest, .double, cur, _, acc =>
      if c = '"' then shlexGo rest .normal cur true acc
      else if c = '\\' then shlexGo rest .escDouble cur true acc
      else shlexGo rest .double (c :: cur) true acc
  | c :: rest, .esc, cur, _, acc => shlexGo rest .normal (c :: cur) true acc
  | c :: rest, .escDouble, cur, _, acc =>
      if c = '"' || c = '\\' then shlexGo rest .double (c :: cur) true acc
      else shlexGo rest .double (c :: '\\' :: cur) true acc

/-- Model of `shlex.split(s)` as invoked on (already stripped) value
strings. -/
def shlexSplit (s : String) : Option (List String) :=
  shlexGo s.data .normal [] false []

/-- Parser options, from `Parser.__init__` in `config.py`. -/
structure Opts : Type where
  enableDefaultSection : Bool := false
  allowSectionSplit : Bool := false
  setIsReplace : Bool := false
  allowEmptyValues : Bool := false
  nestedSections : Bool := false
  deriving DecidableEq, Repr

/-- A value stored in a `Parser.Dict` node: a scalar string, a list of
strings, or a nested `Parser.Dict` (which remembers the section name it was
created with, used in error messages). -/
inductive Val : Type where
  | str (s : String)
  | list (l : List String)
  | dict (sec : String) (entries : List (String × Val))

/-- Entries of a `Parser.Dict`: an insertion-ordered association list, the
model of a Python `dict[str, ...]`. -/
abbrev Entries := List (String × Val)

/-- Does this value hold a nested `Parser.Dict`?  Model of
`isinstance(v, Parser.Dict)`. -/
def Val.isDict : Val → Bool
  | .dict _ _ => true
  | _ => false

mutual

/-- Structural boolean equality on tree values (hand-rolled because the
nested inductive defeats the derive handler). -/
def Val.beq : Val → Val → Bool
  | .str a, .str b => a == b
  | .list a, .list b => a == b
  | .dict s a, .dict t b => s == t && beqValEntries a b
  | _, _ => false

/-- Structural boolean equality on entry lists. -/
def beqValEntries : List (String × Val) → List (String × Val) → Bool
  | [], [] => true
  | (k, v) :: r, (k', v') :: r' => k == k' && Val.beq v v' && beqValEntries r r'
  | [], _ :: _ => false
  | _ :: _, [] => false

end

mutual

theorem valBeq_iff : ∀ x y : Val, Val.beq x y = true ↔ x = y
  | .str _, .str _ => by simp [Val.beq]
  | .str _, .list _ => by simp [Val.beq]
  | .str _, .dict _ _ => by simp [Val.beq]
  | .list _, .str _ => by simp [Val.beq]
  | .list _, .list _ => by simp [Val.beq]
  | .list _, .dict _ _ => by simp [Val.beq]
  | .dict _ _, .str _ => by simp [Val.beq]
  | .dict _ _, .list _ => by simp [Val.beq]
  | .dict s a, .dict t b => by
    simp only [Val.beq, Bool.and_eq_true, beq_iff_eq, Val.dict.injEq]
    rw [beqValEntries_iff a b]

theorem beqValEntries_iff : ∀ a b : List (String × Val), beqValEntries a b = true ↔ a = b
  | [], [] => by simp [beqValEntries]
  | [], _ :: _ => by simp [beqValEntries]
  | _ :: _, [] => by simp [beqValEntries]
  | (k, v) :: r, (k', v') :: r' => by
    simp only [beqValEntries, Bool.and_eq_true, beq_iff_eq, List.cons.injEq, Prod.mk.injEq]
    rw [valBeq_iff v v', beqValEntries_iff r r']

end

instance : DecidableEq Val := fun x y =>
  decidable_of_iff (Val.beq x y = true) (valBeq_iff x y)

/-- Python `dict` lookup (also `dict.get(key, None)`): find the entry with
this exact key. -/
def lookup (es : Entries) (k : String) : Option Val :=
  (es.find? (fun e => e.1 = k)).map (fun e => e.2)

/-- Python `dict.__setitem__` at the raw level: replace the value of an
existing key in place (insertion order preserved), or append a new entry. -/
def setKey (es : Entries) (k : String) (v : Val) : Entries :=
  match es with
  | [] => [(k, v)]
  | (k', v') :: rest => if k' = k then (k, v) :: rest else (k', v') :: setKey rest k v

/-- Python `dict.pop(key, None)`: remove the entry if present, never raise.
This is the whole body of `Parser.Dict.__delitem__` in `config.py`; its
total type records that deletion cannot fail. -/
def delitem (es : Entries) (k : String) : Entries :=
  match es with
  | [] => []
  | (k', v') :: rest => if k' = k then rest else (k', v') :: delitem rest k

/-- The value-normalisation preamble shared verbatim by
`Parser.Dict.__setitem__` (config.py lines 74-93) and `Parser.Dict.assign`
(lines 158-177): a string value is stripped, split by `shlex.split`, its
tokens stripped, zero or one token collapses to a scalar (raising
`Empty value` for an empty scalar unless empty values are allowed); a list
value has its elements stripped; a list containing an empty element raises
`Empty element` unless empty values are allowed; a nested dict passes
through untouched. -/
def processValue (opts : Opts) : Val → Except Err Val
  | .str s =>
      match shlexSplit (pyStrip s) with
      | none => .error .shlexValueError
      | some toks =>
          let toks := toks.map pyStrip
          match toks with
          | [] => if !opts.allowEmptyValues then .error .emptyValue else .ok (.str "")
          | [t] =>
              if t = "" && !opts.allowEmptyValues then .error .emptyValue
              else .ok (.str t)
          | t :: t' :: rest =>
              let l := t :: t' :: rest
              if !opts.allowEmptyValues && l.contains "" then .error .emptyElement
              else .ok (.list l)
  | .list l =>
      let l := l.map pyStrip
      if !opts.allowEmptyValues && l.contains "" then .error .emptyElement
      else .ok (.list l)
  | .dict sec es => .ok (.dict sec es)

/-- The nested-key walk of `Parser.Dict.__setitem__` (config.py lines
99-126).  `first` is true at the top-level call (token index 0); the loop
over all but the last token strips each token, asserts it is non-empty
(except for token 0 when the default section is enabled), creates missing
intermediate dicts (a dict created at index 0 is named by its token alone,
deeper ones by `parent_section.token`), and descending into a non-dict
raises: at the following intermediate token the non-empty assertion fires
first and then `KeyError`, after the loop plain `KeyError`.  The final
token is written by `d[tokens[-1]] = value`, a recursive `__setitem__` on
the child, which re-strips the token and re-processes the value; at the
top level (a key without dots) the write is `super().__setitem__` with the
already-processed value instead.  Mutations made before a raise are kept,
as in Python. -/
def walkSet (opts : Opts) (first : Bool) (parentSec : Option String) (es : Entries) :
    List String → Val → Entries × Option Err
  | [], _ => (es, none)
  | [last], v =>
      if first then (setKey es last v, none)
      else
        let k := pyStrip last
        if k = "" && !(opts.enableDefaultSection && v.isDict) then (es, some .assertionError)
        else
          match processValue opts v with
          | .error e => (es, some e)
          | .ok v' => (setKey es k v', none)
  | t :: r :: rs, v =>
      let t' := pyStrip t
      if t' = "" && !(first && opts.enableDefaultSection) then (es, some .assertionError)
      else
        match lookup es t' with
        | none =>
            let csec := match parentSec with | none => t' | some p => p ++ "." ++ t'
            let res := walkSet opts false (some csec) [] (r :: rs) v
            (setKey es t' (.dict csec res.1), res.2)
        | some (.dict csec ce) =>
            let res := walkSet opts false (some csec) ce (r :: rs) v
            (setKey es t' (.dict csec res.1), res.2)
        | some _ =>
            match rs with
            | [] => (es, some .keyError)
            | _ :: _ => if pyStrip r = "" then (es, some .assertionError) else (es, some .keyError)

/-- `Parser.Dict.__setitem__` (config.py lines 65-126): strip the key; an
empty key asserts that the default section is enabled and the value is a
dict; normalise the value; then either store literally (flat mode) or walk
the dotted key (nested mode). -/
def setitem (opts : Opts) (es : Entries) (key : String) (value : Val) : Entries × Option Err :=
  let k := pyStrip key
  if k = "" && !(opts.enableDefaultSection && value.isDict) then (es, some .assertionError)
  else
    match processValue opts value with
    | .error e => (es, some e)
    | .ok v =>
        if !opts.nestedSections then (setKey es k v, none)
        else walkSet opts true none es (splitOnDot k) v

/-- The nested-key walk of `Parser.Dict.__getitem__` (config.py lines
54-63): descend through dicts along the (unstripped) dot-separated tokens;
a missing key or a non-dict on the way raises `KeyError` (modelled as
`none`). -/
def getNested (es : Entries) : List String → Option Val
  | [] => none
  | [t] => lookup es t
  | t :: r :: rs =>
      match lookup es t with
      | some (.dict _ ce) => getNested ce (r :: rs)
      | _ => none

/-- `Parser.Dict.__getitem__` (config.py lines 50-63): literal lookup in
flat mode, dotted walk in nested mode; `none` models `KeyError`. -/
def dictGetItem (opts : Opts) (es : Entries) (key : String) : Option Val :=
  if !opts.nestedSections then lookup es key
  else getNested es (splitOnDot key)

/-- The elements an incoming (already normalised) value contributes to an
APPEND/UNION: `value if isinstance(value, list) else [value]`. -/
def elemsOfVal : Val → List String
  | .str s => [s]
  | .list l => l
  | .dict _ _ => []

/-- `Parser.Dict.assign` (config.py lines 151-238): strip the key,
normalise the value, look the key up literally (`self.get(key, None)` is
the built-in `dict.get`, which bypasses the nested `__getitem__`).  On a
present key: SET raises (`Cannot replace section` for a dict,
`[section] Value already set for key` otherwise) unless `set_is_replace`,
in which case it stores like REPLACE; REPLACE stores through
`__setitem__`; FALLBACK does nothing; APPEND promotes a scalar to a
one-element list and extends it with the incoming elements; UNION does the
same but keeps only incoming elements not contained in the existing value
(each occurrence is tested against the existing elements only, so
duplicates inside the incoming value are all appended).  On an absent key,
APPEND/UNION store a scalar wrapped in a list, the other modes store the
value as is, both through `__setitem__` (which re-processes the value).
The first component of the result is the final entries, the second the
raised error, if any. -/
def dictAssign (opts : Opts) (selfSec : String) (es : Entries) (key : String)
    (value : Val) (mode : AssignmentMode) : Entries × Option Err :=
  if value.isDict then (es, some .assertionError)
  else
    let k := pyStrip key
    match processValue opts value with
    | .error e => (es, some e)
    | .ok v =>
        match lookup es k with
        | some v0 =>
            match mode with
            | .SET =>
                if !opts.setIsReplace then
                  match v0 with
                  | .dict s _ => (es, some (.cannotReplaceSection s))
                  | _ => (es, some (.valueAlreadySet selfSec k))
                else setitem opts es k v
            | .REPLACE => setitem opts es k v
            | .FALLBACK => (es, none)
            | .APPEND =>
                match v0 with
                | .dict s _ => (es, some (.cannotAddToSection s))
                | .str s0 => (setKey es k (.list (s0 :: elemsOfVal v)), none)
                | .list l0 => (setKey es k (.list (l0 ++ elemsOfVal v)), none)
            | .UNION =>
                match v0 with
                | .dict s _ => (es, some (.cannotAddToSection s))
                | .str s0 =>
                    (setKey es k (.list ([s0] ++ (elemsOfVal v).filter (fun e => !([s0].contains e)))), none)
                | .list l0 =>
                    (setKey es k (.list (l0 ++ (elemsOfVal v).filter (fun e => !(l0.contains e)))), none)
        | none =>
            match mode with
            | .APPEND | .UNION =>
                setitem opts es k (match v with | .str s => .list [s] | w => w)
            | _ => setitem opts es k v

/-- Replace the entries of the dict node sitting at this dotted path
(mirror of the in-place mutation of a node object obtained through
`Parser.Dict.__getitem__` in nested mode: the node is updated where the
walk found it).  Positions where the walk would have failed leave the tree
unchanged (those cases cannot arise for callers, which only write back a
node the walk just returned). -/
def updateNested (es : Entries) : List String → Entries → Entries
  | [], _ => es
  | [t], ne =>
      match lookup es t with
      | some (.dict s _) => setKey es t (.dict s ne)
      | _ => es
  | t :: r :: rs, ne =>
      match lookup es t with
      | some (.dict s ce) => setKey es t (.dict s (updateNested ce (r :: rs) ne))
      | _ => es

/-- Write back the entries of the section node that `Parser.Context.apply`
obtained (and possibly created) for section path `s`.  In flat mode the
node sits under the literal (found case) or stripped (created case) key; in
nested mode it sits at the end of the dotted walk.  `stripped` tells which
of the two spellings located the node. -/
def writeBack (opts : Opts) (es : Entries) (s : String) (stripped : Bool) (ne : Entries) : Entries :=
  let key := if stripped then pyStrip s else s
  if !opts.nestedSections then
    match lookup es key with
    | some (.dict nsec _) => setKey es key (.dict nsec ne)
    | _ => es
  else
    updateNested es ((splitOnDot key).map (fun t => if stripped then pyStrip t else t)) ne

/-- The legacy parsing context `Parser.Context` (config.py lines 240-402):
the tree it writes into, the current section path, the pending
key/value/mode record, the continuation flag, and the section to restore
after a nested-section assignment.  (`ctx_id` and `line_number` only feed
error-message text and are not modelled.) -/
structure OldCtx : Type where
  d : Entries
  sec : Option String := none
  key : Option String := none
  val : Option String := none
  mode : Option AssignmentMode := none
  cont : Bool := false
  restore : Option String := none
  deriving DecidableEq

/-- `Parser.Context.__reset` (config.py lines 313-320): clear the pending
record and restore the saved section, if any. -/
def ctxReset (c : OldCtx) : OldCtx :=
  { c with
    key := none,
    val := none,
    mode := none,
    cont := false,
    sec := (match c.restore with | some r => some r | none => c.sec),
    restore := none }

/-- The tail of `Parser.Context.apply` once the section node is in hand:
commit the pending record (if any) into the node and write the node back
where it was found (`stripped` records which spelling of the section path
located it). -/
def ctxCommit (opts : Opts) (c : OldCtx) (s : String) (stripped : Bool) (nsec : String)
    (ne : Entries) (d0 : Entries) : OldCtx × Option Err :=
  match c.key with
  | none => (ctxReset { c with d := d0 }, none)
  | some k =>
      match c.val, c.mode with
      | some vv, some m =>
          if c.cont then ({ c with d := d0 }, some .assertionError)
          else
            let res := dictAssign opts nsec ne k (.str vv) m
            let d' := writeBack opts d0 s stripped res.1
            match res.2 with
            | some e => ({ c with d := d' }, some e)
            | none => (ctxReset { c with d := d' }, none)
      | _, _ => ({ c with d := d0 }, some .assertionError)

/-- `Parser.Context.apply` (config.py lines 322-344): assert a section is
current (and non-empty unless the default section is enabled); fetch the
section node, creating and storing an empty one on `KeyError` (the store
may itself raise while walking a nested path, and anything stored up to
that point is kept); if a key is pending, assert the record is complete and
not marked as continuing, and commit it with `Parser.Dict.assign` (an error
from `assign` propagates, wrapped with the context position, and resets
nothing); finally reset the pending record. -/
def ctxApply (opts : Opts) (c : OldCtx) : OldCtx × Option Err :=
  match c.sec with
  | none => (c, some .assertionError)
  | some s =>
      if s = "" && !opts.enableDefaultSection then (c, some .assertionError)
      else
        match dictGetItem opts c.d s with
        | some (.dict nsec ne) => ctxCommit opts c s false nsec ne c.d
        | some _ => (c, some .assertionError)
        | none =>
            let st := setitem opts c.d s (.dict s [])
            match st.2 with
            | some e => ({ c with d := st.1 }, some e)
            | none => ctxCommit opts c s true s [] st.1

/-- The `section` property setter of `Parser.Context` (config.py lines
291-311): assert no pending record and no saved section; an empty path
requires the default section to be enabled; record the new section path,
then look it up: an existing dict raises `Duplicate section` unless section
splitting is allowed, an existing non-dict raises
`Key ... is already assigned to a value`, and a missing path calls
`apply()` (which creates the node). -/
def ctxSectionSet (opts : Opts) (c : OldCtx) (s : String) : OldCtx × Option Err :=
  if !(c.restore = none && c.key = none && c.mode = none && c.val = none) then
    (c, some .assertionError)
  else if s = "" && !opts.enableDefaultSection then (c, some .defaultSectionNotAllowed)
  else
    let c1 := { c with sec := some s }
    match dictGetItem opts c1.d s with
    | some v =>
        if v.isDict && !opts.allowSectionSplit then (c1, some (.duplicateSection s))
        else if !v.isDict then (c1, some (.keyAlreadyAssignedToValue s))
        else (c1, none)
    | none => ctxApply opts c1

/-- `Parser.Context.assign` (config.py lines 350-368): assert a section is
current and nothing is pending; record the key, value, mode and
continuation flag; commit at once when the line does not continue. -/
def ctxAssign (opts : Opts) (c : OldCtx) (k v : String) (m : AssignmentMode)
    (cont : Bool) : OldCtx × Option Err :=
  if c.sec = none || c.key ≠ none || c.val ≠ none || c.mode ≠ none || c.cont then
    (c, some .assertionError)
  else
    let c1 := { c with key := some k, val := some v, mode := some m, cont := cont }
    if cont then (c1, none) else ctxApply opts c1

/-- The value-accumulation step of `Parser.Context.continue_assignment`
(config.py lines 379-382) and identically of `Context.continue_assignment`
(context.py lines 132-135): strip the incoming fragment and, when it is
non-empty, append one space and the fragment to the accumulated value. -/
def contStep (acc frag : String) : String :=
  let f := pyStrip frag
  if f = "" then acc else acc ++ " " ++ f

/-- `Parser.Context.continue_assignment` (config.py lines 370-387): assert
a complete pending record marked as continuing; accumulate the fragment;
commit when the continuation ends. -/
def ctxContinue (opts : Opts) (c : OldCtx) (v : String) (cont : Bool) : OldCtx × Option Err :=
  if c.key = none || c.val = none || c.mode = none || !c.cont then (c, some .assertionError)
  else
    let c1 := { c with val := some (contStep (c.val.getD "") v), cont := cont }
    if cont then (c1, none) else ctxApply opts c1

/-- `Parser.Context.set_nested_section` (config.py lines 389-402): assert a
non-empty name, a current section and no saved one; save the current
section and descend into `current.name`; an existing non-dict there raises
`Key ... is already assigned to a value` (a missing path is fine). -/
def ctxSetNested (opts : Opts) (c : OldCtx) (s : String) : OldCtx × Option Err :=
  if s = "" || c.sec = none || c.restore ≠ none then (c, some .assertionError)
  else
    let oldSec := c.sec.getD ""
    let ns := oldSec ++ "." ++ s
    let c1 := { c with restore := some oldSec, sec := some ns }
    match dictGetItem opts c1.d ns with
    | some v => if !v.isDict then (c1, some (.keyAlreadyAssignedToValue ns)) else (c1, none)
    | none => (c1, none)

/-- Word characters of the `[\w-]` character class (ASCII reading of
Python's `\w` plus the dash; no repository input uses non-ASCII word
characters). -/
def isWordDash (c : Char) : Bool := c.isAlphanum || c = '_' || c = '-'

/-- Recogniser of the `Parser.KEY` regular expression
`^([\w-]+(?:\.[\w-]+)*)$` (config.py line 417): every dot-separated
segment is a non-empty run of word characters or dashes. -/
def keyMatches (k : String) : Bool :=
  (splitOnDot k).all (fun s => s ≠ "" && s.data.all isWordDash)

/-- Does a key contain an empty dot-separated segment (leading dot,
trailing dot, or two consecutive dots)? -/
def hasEmptySegment (k : String) : Bool := (splitOnDot k).contains ""

/-- Recogniser of the `Parser.SECTION_NAME` regular expression
`^((?:\.?[\w-]+|\.?\*)*)$` (config.py line 411).  Its language is: every
character is a word character, dash, star or dot, and every dot is
immediately followed by a word character, dash or star (each block of the
regex is an optional dot followed by a word run or a star; blocks
concatenate freely, so only the dots constrain adjacency). -/
def sectionNameOk : List Char → Bool
  | [] => true
  | ['.'] => false
  | '.' :: c :: rest => (isWordDash c || c = '*') && sectionNameOk (c :: rest)
  | c :: rest => (isWordDash c || c = '*') && sectionNameOk rest

/-- String form of the `SECTION_NAME` recogniser. -/
def sectionNameMatches (s : String) : Bool := sectionNameOk s.data

/-- Does the string start with a dot (`name.startswith('.')`)? -/
def startsWithDot (s : String) : Bool :=
  match s.data with
  | '.' :: _ => true
  | _ => false

/-- Group 1 of the `Parser.SECTION` regular expression
`^\[\s*(.*)\s*]$` (config.py line 408) when the line matches.  The line
must begin with `[` and end with `]`; the `\s*` after `[` greedily eats
leading whitespace, and because `.*` is greedy while the second `\s*` can
always match the empty string, the captured group extends to just before
the final `]` and keeps any trailing whitespace. -/
def sectionExtract (line : String) : Option String :=
  match line.data with
  | '[' :: rest =>
      match rest.reverse with
      | ']' :: revInner => some ⟨revInner.reverse.dropWhile pyIsSpace⟩
      | _ => none
  | _ => none

/-- Groups 1-3 of the `Parser.ASSIGNMENT` regular expression
`^([^?!=+^\s]*)\s*(=|!=|\?=|\+=|\^=)\s*(.*)(\\?)$` (config.py line 414):
the key is the maximal leading run free of operator characters and
whitespace, then optional whitespace, then the operator (the alternation
tries `=` first, so a lone `=` wins whenever it is next), then optional
whitespace, then the rest of the line as the value.  Group 4 always
captures the empty string (the greedy `.*` has already consumed any
trailing backslash), so it is not modelled; the code finds the
continuation backslash with the `VALUE` regular expression instead. -/
def assignExtract (line : String) : Option (String × String × String) :=
  let stop := fun c => c = '?' || c = '!' || c = '=' || c = '+' || c = '^' || pyIsSpace c
  let keyCs := line.data.takeWhile (fun c => !stop c)
  let rest := (line.data.dropWhile (fun c => !stop c)).dropWhile pyIsSpace
  match rest with
  | '=' :: tail => some (⟨keyCs⟩, "=", ⟨tail.dropWhile pyIsSpace⟩)
  | '!' :: '=' :: tail => some (⟨keyCs⟩, "!=", ⟨tail.dropWhile pyIsSpace⟩)
  | '?' :: '=' :: tail => some (⟨keyCs⟩, "?=", ⟨tail.dropWhile pyIsSpace⟩)
  | '+' :: '=' :: tail => some (⟨keyCs⟩, "+=", ⟨tail.dropWhile pyIsSpace⟩)
  | '^' :: '=' :: tail => some (⟨keyCs⟩, "^=", ⟨tail.dropWhile pyIsSpace⟩)
  | _ => none

/-- Scanner for the `Parser.VALUE` regular expression
`^((?:[^\\]|\\\\|\\\s|\\'|\\\")*)(\\?)$` (config.py line 420): group 1 is
a sequence of non-backslash characters and of backslash escapes of
backslash, whitespace, single or double quote, kept verbatim; a final lone
backslash is group 2, the continuation marker; a backslash before any
other character makes the whole match fail (`none`). -/
def valueScan : List Char → Option (List Char × Bool)
  | [] => some ([], false)
  | ['\\'] => some ([], true)
  | '\\' :: d :: rest =>
      if d = '\\' || pyIsSpace d || d = '\'' || d = '"' then
        match valueScan rest with
        | some (g, cont) => some ('\\' :: d :: g, cont)
        | none => none
      else none
  | c :: rest =>
      match valueScan rest with
      | some (g, cont) => some (c :: g, cont)
      | none => none

/-- Match a value against the `VALUE` regular expression, returning group 1
and whether group 2 captured a continuation backslash. -/
def valueExtract (s : String) : Option (String × Bool) :=
  (valueScan s.data).map (fun p => (⟨p.1⟩, p.2))

/-- Outcome of one `Parser.__parse_*` handler: the line is not of this
shape, the line was consumed, or an error was raised. -/
inductive POut : Type where
  | noMatch
  | ok
  | err (e : Err)
  deriving DecidableEq, Repr

/-- Model of `'.'.join(tokens)`. -/
def joinDots : List String → String
  | [] => ""
  | [a] => a
  | a :: b :: rest => a ++ "." ++ joinDots (b :: rest)

/-- `Parser.__parse_section` (config.py lines 516-528): if the line matches
the `SECTION` pattern, validate the captured name against `SECTION_NAME`
(a leading dot additionally requires the default-section and
nested-section options) and enter the section through the context's
`section` setter. -/
def parseSection (opts : Opts) (c : OldCtx) (line : String) : OldCtx × POut :=
  match sectionExtract line with
  | none => (c, .noMatch)
  | some name =>
      if !sectionNameMatches name
          || (startsWithDot name && !opts.enableDefaultSection && !opts.nestedSections) then
        (c, .err (.invalidSectionName name))
      else
        let r := ctxSectionSet opts c name
        match r.2 with
        | some e => (r.1, .err e)
        | none => (r.1, .ok)

/-- `Parser.__parse_assignment` (config.py lines 477-514): if the line
matches the `ASSIGNMENT` pattern, enter the default section when no
section is current (raising `Expected a section` when that is not
allowed), translate the operator, validate the key against `KEY` (raising
`Invalid key`), split a dotted key into a nested section plus final key
when nested sections are enabled, match the value against `VALUE` (raising
`Malformed value`), and hand the stripped value to the context. -/
def parseAssignment (opts : Opts) (c : OldCtx) (line : String) : OldCtx × POut :=
  match assignExtract line with
  | none => (c, .noMatch)
  | some (k, op, vtext) =>
      let boot : OldCtx × Option Err :=
        match c.sec with
        | some _ => (c, none)
        | none =>
            if !opts.enableDefaultSection then (c, some .expectedSection)
            else
              let r := parseSection opts c "[]"
              (r.1, (match r.2 with | .err e => some e | _ => none))
      match boot.2 with
      | some e => (boot.1, .err e)
      | none =>
          let c1 := boot.1
          match modeFromStr op with
          | none => (c1, .err .unknownOperator)
          | some m =>
              if !keyMatches k then (c1, .err (.invalidKey k))
              else
                let kn : String × (OldCtx × Option Err) :=
                  if k.data.contains '.' && opts.nestedSections then
                    let toks := splitOnDot k
                    (toks.getLast?.getD k, ctxSetNested opts c1 (joinDots toks.dropLast))
                  else (k, (c1, none))
                match kn.2.2 with
                | some e => (kn.2.1, .err e)
                | none =>
                    let c2 := kn.2.1
                    match valueExtract vtext with
                    | none => (c2, .err .malformedValue)
                    | some (vraw, contFlag) =>
                        let r := ctxAssign opts c2 kn.1 (pyStrip vraw) m contFlag
                        match r.2 with
                        | some e => (r.1, .err e)
                        | none => (r.1, .ok)

/-- Modelled from the spec: a value held by a node of the `Config` tree
(the class `context.py` and `parser.py` import from `config.py`, whose
definition is not among the sources).  Spec section 3: a node maps keys to
a scalar string, an ordered list of strings, or a nested section, and
additionally owns a mapping from its direct keys to the assignment mode
that last wrote them; the mode is modelled here as the third component of
each entry. -/
inductive CVal : Type where
  | scalar (s : String)
  | vlist (l : List String)
  | csect (entries : List (String × CVal × AssignmentMode))

/-- Entries of a modelled `Config` node: insertion-ordered key, value and
recorded assignment mode. -/
abbrev CEntries := List (String × CVal × AssignmentMode)

/-- Is this modelled value a nested section? -/
def CVal.isSect : CVal → Bool
  | .csect _ => true
  | _ => false

mutual

/-- Structural boolean equality on modelled `Config` values. -/
def CVal.beq : CVal → CVal → Bool
  | .scalar a, .scalar b => a == b
  | .vlist a, .vlist b => a == b
  | .csect a, .csect b => beqCEntries a b
  | _, _ => false

/-- Structural boolean equality on modelled `Config` entry lists. -/
def beqCEntries : CEntries → CEntries → Bool
  | [], [] => true
  | (k, v, m) :: r, (k', v', m') :: r' => k == k' && CVal.beq v v' && m == m' && beqCEntries r r'
  | [], _ :: _ => false
  | _ :: _, [] => false

end

mutual

theorem CvalBeq_iff : ∀ x y : CVal, CVal.beq x y = true ↔ x = y
  | .scalar _, .scalar _ => by simp [CVal.beq]
  | .scalar _, .vlist _ => by simp [CVal.beq]
  | .scalar _, .csect _ => by simp [CVal.beq]
  | .vlist _, .scalar _ => by simp [CVal.beq]
  | .vlist _, .vlist _ => by simp [CVal.beq]
  | .vlist _, .csect _ => by simp [CVal.beq]
  | .csect _, .scalar _ => by simp [CVal.beq]
  | .csect _, .vlist _ => by simp [CVal.beq]
  | .csect a, .csect b => by
    simp only [CVal.beq, CVal.csect.injEq]
    rw [beqCEntries_iff a b]

theorem beqCEntries_iff : ∀ a b : CEntries, beqCEntries a b = true ↔ a = b
  | [], [] => by simp [beqCEntries]
  | [], _ :: _ => by simp [beqCEntries]
  | _ :: _, [] => by simp [beqCEntries]
  | (k, v, m) :: r, (k', v', m') :: r' => by
    simp only [beqCEntries, Bool.and_eq_true, beq_iff_eq, List.cons.injEq, Prod.mk.injEq]
    rw [CvalBeq_iff v v', beqCEntries_iff r r']
    tauto

end

instance : DecidableEq CVal := fun x y =>
  decidable_of_iff (CVal.beq x y = true) (CvalBeq_iff x y)

/-- Lookup of a direct key in a modelled `Config` node. -/
def lookupC (es : CEntries) (k : String) : Option (CVal × AssignmentMode) :=
  (es.find? (fun e => e.1 = k)).map (fun e => e.2)

/-- Write a direct key of a modelled `Config` node: replace in place or
append, recording the given assignment mode for the key. -/
def setC (es : CEntries) (k : String) (v : CVal) (m : AssignmentMode) : CEntries :=
  match es with
  | [] => [(k, v, m)]
  | (k', v', m') :: rest =>
      if k' = k then (k, v, m) :: rest else (k', v', m') :: setC rest k v m

/-- Modelled from the spec: pure `Config.get` along already-split path
segments — the leaf value (with its recorded mode), a nested node, or
absent; does not mutate. -/
def cfgGetSegs (es : CEntries) : List String → Option (CVal × AssignmentMode)
  | [] => none
  | [k] => lookupC es k
  | k :: r :: rs =>
      match lookupC es k with
      | some (.csect ce, _) => cfgGetSegs ce (r :: rs)
      | _ => none

/-- Modelled from the spec: `Config.get(path, create_intermediate=True)`
(the form `Context.section` and `Parser.__parse_section` call): resolve
the path, creating any missing intermediate section with recorded mode
UNION as it descends; fail with a path error if a segment is empty or an
intermediate segment already holds a non-section value; return the updated
tree and the entry addressed by the full path, if present (the final key
itself is not created). -/
def cfgGetCreate (es : CEntries) (fullPath : String) :
    List String → Except Err (CEntries × Option (CVal × AssignmentMode))
  | [] => .error .pathEmptySegment
  | [k] =>
      if k = "" then .error .pathEmptySegment else .ok (es, lookupC es k)
  | k :: r :: rs =>
      if k = "" then .error .pathEmptySegment
      else
        match lookupC es k with
        | none =>
            match cfgGetCreate [] fullPath (r :: rs) with
            | .error e => .error e
            | .ok (ce, ent) => .ok (setC es k (.csect ce) .UNION, ent)
        | some (.csect ce, m0) =>
            match cfgGetCreate ce fullPath (r :: rs) with
            | .error e => .error e
            | .ok (ce', ent) => .ok (setC es k (.csect ce') m0, ent)
        | some _ => .error (.pathThroughValue fullPath)

/-- The elements an incoming modelled value contributes to APPEND/UNION. -/
def cElems : CVal → List String
  | .scalar s => [s]
  | .vlist l => l
  | .csect _ => []

/-- Modelled from the spec: the elements of the incoming value that UNION
appends — those not already present in the existing elements (by exact
string equality), in the order they first appear in the incoming value. -/
def unionNew (cur incoming : List String) : List String :=
  incoming.foldl (fun acc e => if cur.contains e || acc.contains e then acc else acc ++ [e]) []

/-- Modelled from the spec: the core write `Config.assign` along split path
segments (spec section 4.2).  All but the last segment are resolved like
`getOrCreate` (missing intermediates are created as sections with recorded
mode UNION; an intermediate holding a non-section value or an empty
segment is a path error).  An absent final key is written directly, the
value wrapped into a one-element list for APPEND/UNION, and the mode is
recorded.  A present final key applies the conflict algebra: SET fails
with an already-assigned error naming the full path (the `set_is_replace`
override is applied by the caller in `parser.py`, which rewrites the mode
to REPLACE before the call); REPLACE stores the incoming value; FALLBACK
is a no-op; APPEND promotes a scalar to a one-element list and appends all
incoming elements; UNION does the same but appends only elements not
already present, in order of first appearance, and is a no-op (nothing is
stored, no mode is recorded) when no element is new. -/
def cfgAssignSegs (es : CEntries) (fullPath : String) :
    List String → CVal → AssignmentMode → Except Err CEntries
  | [], _, _ => .error .pathEmptySegment
  | [k], v, m =>
      if k = "" then .error .pathEmptySegment
      else
        match lookupC es k with
        | none =>
            let stored : CVal :=
              match m, v with
              | .APPEND, .scalar s => .vlist [s]
              | .UNION, .scalar s => .vlist [s]
              | _, w => w
            .ok (setC es k stored m)
        | some (v0, _) =>
            match m with
            | .SET => .error (.pathAlreadyAssigned fullPath)
            | .REPLACE => .ok (setC es k v m)
            | .FALLBACK => .ok es
            | .APPEND =>
                match v0 with
                | .csect _ => .error (.sectionValueConflict fullPath)
                | .scalar s0 => .ok (setC es k (.vlist (s0 :: cElems v)) m)
                | .vlist l0 => .ok (setC es k (.vlist (l0 ++ cElems v)) m)
            | .UNION =>
                match v0 with
                | .csect _ => .error (.sectionValueConflict fullPath)
                | .scalar s0 =>
                    let ne := unionNew [s0] (cElems v)
                    if ne = [] then .ok es else .ok (setC es k (.vlist ([s0] ++ ne)) m)
                | .vlist l0 =>
                    let ne := unionNew l0 (cElems v)
                    if ne = [] then .ok es else .ok (setC es k (.vlist (l0 ++ ne)) m)
  | k :: r :: rs, v, m =>
      if k = "" then .error .pathEmptySegment
      else
        match lookupC es k with
        | none =>
            match cfgAssignSegs [] fullPath (r :: rs) v m with
            | .error e => .error e
            | .ok ce => .ok (setC es k (.csect ce) .UNION)
        | some (.csect ce, m0) =>
            match cfgAssignSegs ce fullPath (r :: rs) v m with
            | .error e => .error e
            | .ok ce' => .ok (setC es k (.csect ce') m0)
        | some _ => .error (.pathThroughValue fullPath)

/-- Modelled from the spec: value explosion (spec sections 4.1 and 6):
tokenize the stripped value shell-style; zero tokens denote the empty
string, one token stays scalar (the policy `Context` relies on), two or
more become a list.  `none` models the tokenizer's `ValueError`. -/
def cfgExplode (raw : String) : Option CVal :=
  (shlexSplit (pyStrip raw)).map (fun toks =>
    match toks with
    | [] => .scalar ""
    | [t] => .scalar t
    | t :: t' :: rest => .vlist (t :: t' :: rest))

/-- Modelled from the spec: `Config.assign(path, value, mode,
explode_value=True)` as called by `Context.apply`: explode the raw value,
write it along the dotted path, and report whether the tree actually
changed. -/
def cfgAssign (es : CEntries) (path : String) (raw : String) (m : AssignmentMode) :
    Except Err (CEntries × Bool) :=
  match cfgExplode raw with
  | none => .error .shlexValueError
  | some v =>
      match cfgAssignSegs es path (splitOnDot path) v m with
      | .error e => .error e
      | .ok es' => .ok (es', !(beqCEntries es' es))

/-- The parsing context of the current architecture, from `Context` in
`context.py`: the modelled `Config` tree, the current section path (empty
string for the root), and the pending path/value/mode record with its
continuation flag.  (`ctx_id` and `line_number` only feed error-message
text and are not modelled.) -/
structure Ctx2 : Type where
  cfg : CEntries
  sec : String := ""
  path : Option String := none
  val : Option String := none
  mode : Option AssignmentMode := none
  cont : Bool := false
  deriving DecidableEq

/-- `Context.apply` (context.py lines 86-98): `__assert` that a complete
pending record exists (raising `Invalid state` otherwise), commit it to
the tree at the section-qualified path, and clear the record. -/
def ctx2Apply (c : Ctx2) : Except Err Ctx2 :=
  match c.path, c.val, c.mode with
  | some p, some v, some m =>
      let full := (if c.sec = "" then "" else c.sec ++ ".") ++ p
      match cfgAssign c.cfg full v m with
      | .error e => .error e
      | .ok (cfg', _) =>
          .ok { c with
                cfg := cfg',
                path := none,
                val := none,
                mode := none,
                cont := false }
  | _, _, _ => .error .invalidState

/-- `Context.assign` (context.py lines 104-121): `__assert` that nothing
is pending, record the path, value, mode and continuation flag, and commit
at once when the line does not continue. -/
def ctx2Assign (c : Ctx2) (p v : String) (m : AssignmentMode) (cont : Bool) :
    Except Err Ctx2 :=
  if c.path ≠ none || c.val ≠ none || c.mode ≠ none || c.cont then .error .invalidState
  else
    let c1 := { c with path := some p, val := some v, mode := some m, cont := cont }
    if cont then .ok c1 else ctx2Apply c1

/-- `Context.continue_assignment` (context.py lines 123-140): `__assert`
that a complete pending record marked as continuing exists, accumulate the
stripped fragment (empty fragments contribute nothing), and commit when
the continuation ends. -/
def ctx2Continue (c : Ctx2) (v : String) (cont : Bool) : Except Err Ctx2 :=
  if c.path = none || c.val = none || c.mode = none || !c.cont then .error .invalidState
  else
    let c1 := { c with val := some (contStep (c.val.getD "") v), cont := cont }
    if cont then .ok c1 else ctx2Apply c1

/-- The `section` property setter of `Context` (context.py lines 61-74):
an empty path selects the root; otherwise resolve the path with
intermediate creation, accept it if absent or a section, and raise
`Path ... is already assigned` if it holds a value.  There is no
duplicate-section check: re-entering an existing section always
succeeds. -/
def ctx2SectionSet (c : Ctx2) (p : String) : Except Err Ctx2 :=
  if p = "" then .ok { c with sec := "" }
  else
    match cfgGetCreate c.cfg p (splitOnDot p) with
    | .error e => .error e
    | .ok (cfg', ent) =>
        match ent with
        | none => .ok { c with cfg := cfg', sec := p }
        | some (.csect _, _) => .ok { c with cfg := cfg', sec := p }
        | some _ => .error (.pathAlreadyAssigned p)

/-- `Parser.__parse_empty` of `parser.py` (lines 38-44): a non-empty line
is not handled; an empty line commits an open continuation and is
consumed.  The boolean reports whether the line was consumed. -/
def parse2Empty (c : Ctx2) (line : String) : Except Err (Ctx2 × Bool) :=
  if line ≠ "" then .ok (c, false)
  else if c.cont then
    match ctx2Apply c with
    | .error e => .error e
    | .ok c' => .ok (c', true)
  else .ok (c, true)

/-! Association-list lemmas for the legacy tree. -/

theorem lookup_cons (k' : String) (v' : Val) (t : Entries) (k : String) :
    lookup ((k', v') :: t) k = if k' = k then some v' else lookup t k := by
  by_cases h : k' = k <;> simp [lookup, List.find?_cons, h]

theorem lookup_setKey_self (es : Entries) (k : String) (v : Val) :
    lookup (setKey es k v) k = some v := by
  induction es with
  | nil => simp [setKey, lookup, List.find?]
  | cons e t ih =>
      obtain ⟨k', v'⟩ := e
      by_cases h : k' = k
      · subst h; simp [setKey, lookup_cons]
      · simp [setKey, h, lookup_cons, ih]

theorem lookup_setKey_ne (es : Entries) (k k' : String) (v : Val) (h : k' ≠ k) :
    lookup (setKey es k v) k' = lookup es k' := by
  induction es with
  | nil =>
      rw [setKey, lookup_cons, if_neg (fun hc => h hc.symm)]
  | cons e t ih =>
      obtain ⟨k'', v''⟩ := e
      by_cases h2 : k'' = k
      · subst h2
        rw [setKey, if_pos rfl, lookup_cons, lookup_cons,
          if_neg (fun hc => h hc.symm), if_neg (fun hc => h hc.symm)]
      · rw [setKey, if_neg h2, lookup_cons, lookup_cons, ih]

theorem setKey_self (es : Entries) (k : String) (v : Val) (h : lookup es k = some v) :
    setKey es k v = es := by
  induction es with
  | nil => simp [lookup] at h
  | cons e t ih =>
      obtain ⟨k', v'⟩ := e
      rw [lookup_cons] at h
      by_cases h2 : k' = k
      · subst h2
        rw [if_pos rfl] at h
        rw [setKey, if_pos rfl, (Option.some.injEq _ _).mp h]
      · rw [if_neg h2] at h
        rw [setKey, if_neg h2, ih h]

/-- C10: deleting a key from a tree node never raises; when the key is
absent the deletion is a no-op and the node is unchanged (the total type of
`delitem`, the embedding of `Parser.Dict.__delitem__` = `pop(key, None)`,
records that no input raises, unlike built-in `dict` deletion). -/
theorem claim_C10_delitem (es : Entries) (k : String) (h : lookup es k = none) :
    delitem es k = es := by
  induction es with
  | nil => rfl
  | cons e t ih =>
      obtain ⟨k', v'⟩ := e
      rw [lookup_cons] at h
      by_cases h2 : k' = k
      · rw [if_pos h2] at h; exact absurd h (by simp)
      · rw [if_neg h2] at h
        rw [delitem, if_neg h2, ih h]

/-- Witness for C10 at a concrete absent key. -/
theorem claim_C10_witness :
    delitem [("a", Val.str "x")] "b" = [("a", Val.str "x")] :=
  claim_C10_delitem _ _ (by decide)

/-- C2: with a value already stored under a key, a second SET assignment
without the replace override fails with the `Value already set` error
naming the node's section and the key, leaving the tree unchanged; with
`set_is_replace` enabled the same SET succeeds and stores the incoming
value (embedding of `Parser.Dict.assign`, config.py lines 183-192; the
override check sits inside the SET branch). -/
theorem claim_C2_set_conflict (opts : Opts) (sec : String) (es : Entries) (k : String)
    (v0 : Val) (vNew : String) (pv : Val)
    (hk : pyStrip k = k) (hk0 : k ≠ "") (hflat : opts.nestedSections = false)
    (h0 : lookup es k = some v0) (hnd : v0.isDict = false)
    (hp : processValue opts (.str vNew) = .ok pv)
    (hpp : processValue opts pv = .ok pv) :
    (opts.setIsReplace = false →
      dictAssign opts sec es k (.str vNew) .SET = (es, some (.valueAlreadySet sec k))) ∧
    (opts.setIsReplace = true →
      dictAssign opts sec es k (.str vNew) .SET = (setKey es k pv, none) ∧
      lookup (setKey es k pv) k = some pv) := by
  constructor
  · intro hsr
    cases v0 with
    | dict s e => simp [Val.isDict] at hnd
    | str s0 => simp [dictAssign, Val.isDict, hk, hp, h0, hsr]
    | list l0 => simp [dictAssign, Val.isDict, hk, hp, h0, hsr]
  · intro hsr
    refine ⟨?_, lookup_setKey_self es k pv⟩
    have hset : setitem opts es k pv = (setKey es k pv, none) := by
      simp [setitem, hk, hk0, hpp, hflat]
    cases v0 with
    | dict s e => simp [Val.isDict] at hnd
    | str s0 => simp [dictAssign, Val.isDict, hk, hp, h0, hsr, hset]
    | list l0 => simp [dictAssign, Val.isDict, hk, hp, h0, hsr, hset]

/-- Witness for C2 at the concrete input of the repository's own test
(`key = original` then `key = replaced` inside `[section]`). -/
theorem claim_C2_witness :
    dictAssign {} "section" [("key", Val.str "original")] "key" (.str "replaced") .SET =
      ([("key", Val.str "original")], some (.valueAlreadySet "section" "key")) ∧
    dictAssign { setIsReplace := true } "section" [("key", Val.str "original")] "key"
      (.str "replaced") .SET = ([("key", Val.str "replaced")], none) :=
  ⟨(claim_C2_set_conflict {} "section" [("key", Val.str "original")] "key"
      (Val.str "original") "replaced" (Val.str "replaced")
      rfl (by decide) rfl rfl rfl rfl rfl).1 rfl,
    ((claim_C2_set_conflict { setIsReplace := true } "section" [("key", Val.str "original")]
      "key" (Val.str "original") "replaced" (Val.str "replaced")
      rfl (by decide) rfl rfl rfl rfl rfl).2 rfl).1⟩

/-- C3 fails as stated: UNION does not deduplicate within the incoming
value.  With `k = v` stored and the assignment `k ^= x x`, the code of
config.py lines 218-223 tests each incoming occurrence against the
existing elements only, so both occurrences of `x` are appended and the
result is `[v, x, x]`, not the `[v, x]` that "the order they first appear"
(one occurrence each) describes. -/
theorem claim_C3_counterexample :
    dictAssign {} "s" [("k", Val.str "v")] "k" (.str "x x") .UNION =
      ([("k", Val.list ["v", "x", "x"])], none) ∧
    ["v", "x", "x"] ≠ ["v", "x"] :=
  ⟨rfl, by decide⟩

/-- C3 amended: UNION onto an existing non-section value promotes a scalar
to a one-element list and appends every incoming occurrence of an element
not contained in the existing value, in incoming order (duplicates within
the incoming value are all kept); when the existing value is a list and
every incoming element is already contained in it, the assignment leaves
the tree unchanged — in particular `k = v` followed by `k ^= v v2` yields
`[v, v2]` and repeating that `^=` is a no-op. -/
theorem claim_C3_amended (opts : Opts) (sec : String) (es : Entries) (k : String)
    (v0 : Val) (vNew : String) (pv : Val)
    (hk : pyStrip k = k) (h0 : lookup es k = some v0) (hnd : v0.isDict = false)
    (hp : processValue opts (.str vNew) = .ok pv) :
    dictAssign opts sec es k (.str vNew) .UNION =
      (setKey es k (.list (elemsOfVal v0 ++
        (elemsOfVal pv).filter (fun e => !((elemsOfVal v0).contains e)))), none) ∧
    (∀ l0, v0 = .list l0 → (elemsOfVal pv).all (fun e => l0.contains e) = true →
      dictAssign opts sec es k (.str vNew) .UNION = (es, none)) := by
  have hmain : dictAssign opts sec es k (.str vNew) .UNION =
      (setKey es k (.list (elemsOfVal v0 ++
        (elemsOfVal pv).filter (fun e => !((elemsOfVal v0).contains e)))), none) := by
    cases v0 with
    | dict s e => simp [Val.isDict] at hnd
    | str s0 => simp [dictAssign, Val.isDict, hk, hp, h0, elemsOfVal]
    | list l0 => simp [dictAssign, Val.isDict, hk, hp, h0, elemsOfVal]
  refine ⟨hmain, ?_⟩
  rintro l0 rfl hall
  rw [hmain]
  have hfilt : (elemsOfVal pv).filter (fun e => !(l0.contains e)) = [] := by
    rw [List.filter_eq_nil_iff]
    intro a ha
    have := List.all_eq_true.mp hall a ha
    simp only [this, Bool.not_true, Bool.false_eq_true, not_false_eq_true]
  rw [elemsOfVal, hfilt, List.append_nil, setKey_self es k (Val.list l0) h0]

/-- Witness for C3 amended: `key = a c` then `key ^= a b c d` appends `b`
and `d` in order, and repeating an already-contained union is a no-op. -/
theorem claim_C3_witness :
    dictAssign {} "section" [("key", Val.list ["a", "c"])] "key" (.str "a b c d") .UNION =
      ([("key", Val.list ["a", "c", "b", "d"])], none) ∧
    dictAssign {} "section" [("key", Val.list ["a", "b"])] "key" (.str "b a") .UNION =
      ([("key", Val.list ["a", "b"])], none) :=
  ⟨by
    have h := (claim_C3_amended {} "section" [("key", Val.list ["a", "c"])] "key"
      (Val.list ["a", "c"]) "a b c d" (Val.list ["a", "b", "c", "d"]) rfl rfl rfl rfl).1
    simpa using h,
   (claim_C3_amended {} "section" [("key", Val.list ["a", "b"])] "key"
      (Val.list ["a", "b"]) "b a" (Val.list ["b", "a"]) rfl rfl rfl rfl).2
      ["a", "b"] rfl (by decide)⟩

/-- C8 is a code bug: the `SECTION` regular expression `^\[\s*(.*)\s*]$`
was written to strip whitespace on both sides of the captured name, but
the greedy `.*` always reaches the final `]`, so the `\s*` before `]`
can never consume anything and trailing whitespace stays inside the
captured group; the name then fails the `SECTION_NAME` grammar and the
line `[a ]` is rejected as `Invalid section name: 'a '`, while `[ a]`
parses and addresses `a`. -/
theorem claim_C8_section_whitespace :
    sectionExtract "[a ]" = some "a " ∧
    parseSection {} { d := [] } "[a ]" = ({ d := [] }, .err (.invalidSectionName "a ")) ∧
    parseSection {} { d := [] } "[ a]" =
      ({ d := [("a", Val.dict "a" [])], sec := some "a" }, .ok) :=
  ⟨rfl, rfl, rfl⟩

/-- A list of strings that contains the empty string cannot pass the
all-segments-non-empty check of the `KEY` grammar. -/
theorem allSegs_false_of_contains_empty (L : List String) (h : L.contains "" = true) :
    L.all (fun s => s ≠ "" && s.data.all isWordDash) = false := by
  induction L with
  | nil => simp at h
  | cons a t ih =>
      by_cases ha : a = ""
      · subst ha; simp
      · rw [List.contains_cons] at h
        rw [beq_eq_false_iff_ne.mpr (Ne.symm ha), Bool.false_or] at h
        rw [List.all_cons, ih h, Bool.and_false]

/-- C4 fails as stated at the tree level: a nested write whose key has an
empty middle segment creates the intermediate section for the segments
before the empty one and only then hits the non-empty-token assertion, so
the failed call leaves the tree changed (config.py lines 99-118: the
`Parser.Dict` for token 0 is created and stored before the assert for
token 1 runs). -/
theorem claim_C4_counterexample :
    setitem { nestedSections := true } [] "a..b" (.str "v") =
      ([("a", Val.dict "a" [])], some .assertionError) ∧
    ([("a", Val.dict "a" [])] : Entries) ≠ ([] : Entries) :=
  ⟨rfl, by simp⟩

/-- C4 amended: every key with an empty dot-separated segment fails the
`KEY` grammar, and an assignment line carrying such a key, handled by the
parser inside a declared section, is rejected with `Invalid key` before
the context or the tree is touched; a direct `Parser.Dict` write of such a
key, however, fails only after creating the intermediate sections that
precede the first empty segment (see the counterexample). -/
theorem claim_C4_amended :
    (∀ k, hasEmptySegment k = true → keyMatches k = false) ∧
    (∀ (opts : Opts) (c : OldCtx) (line k op vtext s : String) (m : AssignmentMode),
      c.sec = some s → assignExtract line = some (k, op, vtext) → modeFromStr op = some m →
      hasEmptySegment k = true →
      parseAssignment opts c line = (c, .err (.invalidKey k))) := by
  have hseg : ∀ k, hasEmptySegment k = true → keyMatches k = false := fun k h =>
    allSegs_false_of_contains_empty (splitOnDot k) h
  refine ⟨hseg, ?_⟩
  intro opts c line k op vtext s m hsec hext hmode hke
  simp [parseAssignment, hext, hsec, hmode, hseg k hke]

/-- Witness for C4 amended at the line `a..b = v`. -/
theorem claim_C4_amended_witness :
    parseAssignment {} { d := [], sec := some "s" } "a..b = v" =
      ({ d := [], sec := some "s" }, .err (.invalidKey "a..b")) :=
  claim_C4_amended.2 {} { d := [], sec := some "s" } "a..b = v" "a..b" "=" "v" "s"
    .SET rfl rfl rfl rfl

/-- C6 fails as stated: re-declaring a section raises `Duplicate section`
when section splitting is not enabled (config.py lines 302-306) — the
first `[s]` succeeds and creates the node, the second raises. -/
theorem claim_C6_counterexample :
    parseSection {} { d := [] } "[s]" = ({ d := [("s", Val.dict "s" [])], sec := some "s" }, .ok) ∧
    parseSection {} { d := [("s", Val.dict "s" [])], sec := some "s" } "[s]" =
      ({ d := [("s", Val.dict "s" [])], sec := some "s" }, .err (.duplicateSection "s")) :=
  ⟨rfl, rfl⟩

/-- C6 amended: with `allow_section_split` enabled, re-entering a
previously-declared section succeeds without error, and an assignment made
after the re-entry merges into the existing section node: the tree is
updated at the same key, holding the same node extended by the committed
assignment, and every other top-level entry is untouched.  (The newer
`Context` of context.py drops the duplicate check entirely, so there
re-entry needs no option.) -/
theorem claim_C6_amended (opts : Opts)
    (hsplit : opts.allowSectionSplit = true) (hflat : opts.nestedSections = false)
    (c : OldCtx) (s nsec : String) (ne : Entries) (hs0 : s ≠ "")
    (hkey : c.key = none) (hval : c.val = none) (hmode : c.mode = none)
    (hres : c.restore = none) (hcont : c.cont = false)
    (hfound : lookup c.d s = some (.dict nsec ne))
    (k vv : String) (m : AssignmentMode) (ne' : Entries)
    (hassign : dictAssign opts nsec ne k (.str vv) m = (ne', none)) :
    ctxSectionSet opts c s = ({ c with sec := some s }, none) ∧
    ctxAssign opts { c with sec := some s } k vv m false =
      ({ c with d := setKey c.d s (.dict nsec ne'), sec := some s }, none) ∧
    lookup (setKey c.d s (.dict nsec ne')) s = some (.dict nsec ne') ∧
    (∀ k', k' ≠ s → lookup (setKey c.d s (.dict nsec ne')) k' = lookup c.d k') := by
  obtain ⟨d, sec0, key0, val0, mode0, cont0, restore0⟩ := c
  simp only at hkey hval hmode hres hcont hfound
  subst hkey hval hmode hres hcont
  refine ⟨?_, ?_, lookup_setKey_self _ _ _, fun k' hk' => lookup_setKey_ne _ _ _ _ hk'⟩
  · simp [ctxSectionSet, dictGetItem, hflat, hfound, hs0, hsplit, Val.isDict]
  · simp [ctxAssign, ctxApply, ctxCommit, ctxReset, dictGetItem, writeBack,
      hflat, hfound, hs0, hassign]

/-- Witness for C6 amended: re-enter `[s]` with splitting allowed and merge
`k2 = v2` next to the existing `k1`. -/
theorem claim_C6_amended_witness :
    ctxSectionSet { allowSectionSplit := true }
      { d := [("s", Val.dict "s" [("k1", Val.str "v1")])] } "s" =
      ({ d := [("s", Val.dict "s" [("k1", Val.str "v1")])], sec := some "s" }, none) ∧
    ctxAssign { allowSectionSplit := true }
      { d := [("s", Val.dict "s" [("k1", Val.str "v1")])], sec := some "s" } "k2" "v2" .SET false =
      ({ d := [("s", Val.dict "s" [("k1", Val.str "v1"), ("k2", Val.str "v2")])],
         sec := some "s" }, none) := by
  have h := claim_C6_amended { allowSectionSplit := true } rfl rfl
    { d := [("s", Val.dict "s" [("k1", Val.str "v1")])] } "s" "s" [("k1", Val.str "v1")]
    (by decide) rfl rfl rfl rfl rfl rfl "k2" "v2" .SET
    [("k1", Val.str "v1"), ("k2", Val.str "v2")] rfl
  exact ⟨h.1, h.2.1⟩

/-- The pending-record invariant of the current `Context`: a pending
path, value and mode are held exactly when the continuation flag is
true. -/
def ctx2Inv (c : Ctx2) : Prop :=
  c.path.isSome = c.cont ∧ c.val.isSome = c.cont ∧ c.mode.isSome = c.cont

theorem ctx2Apply_inv (c c' : Ctx2) (h : ctx2Apply c = .ok c') : ctx2Inv c' := by
  unfold ctx2Apply at h
  cases hp : c.path with
  | none => rw [hp] at h; exact absurd h (by simp)
  | some p =>
    cases hv : c.val with
    | none => rw [hp, hv] at h; exact absurd h (by simp)
    | some v =>
      cases hm : c.mode with
      | none => rw [hp, hv, hm] at h; exact absurd h (by simp)
      | some m =>
        rw [hp, hv, hm] at h
        simp only at h
        cases hcf : cfgAssign c.cfg ((if c.sec = "" then "" else c.sec ++ ".") ++ p) v m with
        | error e => rw [hcf] at h; exact absurd h (by simp)
        | ok r =>
          obtain ⟨cfg', b⟩ := r
          rw [hcf] at h
          simp only [Except.ok.injEq] at h
          subst h
          exact ⟨rfl, rfl, rfl⟩

/-- C9: after every normally-returning public operation of the current
`Context` (assign, continue_assignment, apply, section change, empty-line
handling), the context holds a complete pending record exactly when its
continuation flag is true; an assignment or continuation whose `continues`
flag is false is committed within the same call and the record is
cleared. -/
theorem claim_C9_pending_invariant (c : Ctx2) (h : ctx2Inv c) :
    (∀ p v m ct c', ctx2Assign c p v m ct = .ok c' → ctx2Inv c') ∧
    (∀ v ct c', ctx2Continue c v ct = .ok c' → ctx2Inv c') ∧
    (∀ c', ctx2Apply c = .ok c' → ctx2Inv c') ∧
    (∀ p c', ctx2SectionSet c p = .ok c' → ctx2Inv c') ∧
    (∀ line c' b, parse2Empty c line = .ok (c', b) → ctx2Inv c') := by
  obtain ⟨cfg, sec, path, val, mode, cont⟩ := c
  obtain ⟨h1, h2, h3⟩ := h
  simp only at h1 h2 h3
  refine ⟨?_, ?_, fun c' hc => ctx2Apply_inv _ c' hc, ?_, ?_⟩
  · intro p v m ct c' ha
    cases cont with
    | true => simp [ctx2Assign] at ha
    | false =>
        cases path with
        | some _ => simp at h1
        | none =>
        cases val with
        | some _ => simp at h2
        | none =>
        cases mode with
        | some _ => simp at h3
        | none =>
        cases ct with
        | true =>
            simp only [ctx2Assign] at ha
            rw [if_neg (by simp)] at ha; simp only [if_true] at ha
            simp only [Except.ok.injEq] at ha
            subst ha
            exact ⟨rfl, rfl, rfl⟩
        | false =>
            simp only [ctx2Assign] at ha
            rw [if_neg (by simp), if_neg (by simp)] at ha
            exact ctx2Apply_inv _ c' ha
  · intro v ct c' ha
    cases cont with
    | false => simp [ctx2Continue] at ha
    | true =>
        cases path with
        | none => simp at h1
        | some p0 =>
        cases val with
        | none => simp at h2
        | some v0 =>
        cases mode with
        | none => simp at h3
        | some m0 =>
        cases ct with
        | true =>
            simp only [ctx2Continue] at ha
            rw [if_neg (by simp)] at ha; simp only [if_true] at ha
            simp only [Except.ok.injEq] at ha
            subst ha
            exact ⟨rfl, rfl, rfl⟩
        | false =>
            simp only [ctx2Continue] at ha
            rw [if_neg (by simp), if_neg (by simp)] at ha
            exact ctx2Apply_inv _ c' ha
  · intro p c' ha
    unfold ctx2SectionSet at ha
    by_cases hp : p = ""
    · rw [if_pos hp] at ha
      simp only [Except.ok.injEq] at ha
      subst ha
      exact ⟨h1, h2, h3⟩
    · rw [if_neg hp] at ha
      cases hg : cfgGetCreate cfg p (splitOnDot p) with
      | error e => rw [hg] at ha; exact absurd ha (by simp)
      | ok r =>
          obtain ⟨cfg', ent⟩ := r
          rw [hg] at ha
          simp only at ha
          cases ent with
          | none =>
              simp only [Except.ok.injEq] at ha
              subst ha
              exact ⟨h1, h2, h3⟩
          | some e =>
              obtain ⟨ev, em⟩ := e
              cases ev with
              | csect ce =>
                  simp only [Except.ok.injEq] at ha
                  subst ha
                  exact ⟨h1, h2, h3⟩
              | scalar s => exact absurd ha (by simp)
              | vlist l => exact absurd ha (by simp)
  · intro line c' b ha
    unfold parse2Empty at ha
    by_cases hl : line ≠ ""
    · rw [if_pos hl] at ha
      simp only [Except.ok.injEq, Prod.mk.injEq] at ha
      obtain ⟨rfl, -⟩ := ha
      exact ⟨h1, h2, h3⟩
    · rw [if_neg hl] at ha
      cases cont with
      | false =>
          rw [if_neg (by simp)] at ha
          simp only [Except.ok.injEq, Prod.mk.injEq] at ha
          obtain ⟨rfl, -⟩ := ha
          exact ⟨h1, h2, h3⟩
      | true =>
          rw [if_pos rfl] at ha
          cases hap : ctx2Apply ⟨cfg, sec, path, val, mode, true⟩ with
          | error e => rw [hap] at ha; exact absurd ha (by simp)
          | ok c'' =>
              rw [hap] at ha
              simp only [Except.ok.injEq, Prod.mk.injEq] at ha
              obtain ⟨rfl, -⟩ := ha
              exact ctx2Apply_inv _ _ hap

/-- Witness for C9: a committing assignment on an idle context restores the
invariant with the record cleared. -/
theorem claim_C9_witness :
    ctx2Inv { cfg := [("k", CVal.scalar "v", AssignmentMode.SET)] } :=
  (claim_C9_pending_invariant { cfg := [] } ⟨rfl, rfl, rfl⟩).1 "k" "v" .SET false _ rfl

/-! Association-list lemmas for the modelled `Config` tree. -/

theorem lookupC_cons (k' : String) (v' : CVal) (m' : AssignmentMode) (t : CEntries) (k : String) :
    lookupC ((k', v', m') :: t) k = if k' = k then some (v', m') else lookupC t k := by
  by_cases h : k' = k <;> simp [lookupC, List.find?_cons, h]

theorem lookupC_setC_self (es : CEntries) (k : String) (v : CVal) (m : AssignmentMode) :
    lookupC (setC es k v m) k = some (v, m) := by
  induction es with
  | nil => simp [setC, lookupC, List.find?]
  | cons e t ih =>
      obtain ⟨k', v', m'⟩ := e
      by_cases h : k' = k
      · subst h; simp [setC, lookupC_cons]
      · rw [setC, if_neg h, lookupC_cons, if_neg h, ih]

theorem setC_self (es : CEntries) (k : String) (v : CVal) (m : AssignmentMode)
    (h : lookupC es k = some (v, m)) : setC es k v m = es := by
  induction es with
  | nil => simp [lookupC] at h
  | cons e t ih =>
      obtain ⟨k', v', m'⟩ := e
      rw [lookupC_cons] at h
      by_cases h2 : k' = k
      · subst h2
        rw [if_pos rfl] at h
        have h3 := (Option.some.injEq _ _).mp h
        rw [setC, if_pos rfl, (Prod.mk.injEq _ _ _ _).mp h3.symm |>.1,
          ((Prod.mk.injEq _ _ _ _).mp h3.symm).2]
      · rw [if_neg h2] at h
        rw [setC, if_neg h2, ih h]

theorem beqCEntries_refl (es : CEntries) : beqCEntries es es = true :=
  (beqCEntries_iff es es).mpr rfl

theorem cfgGetSegs_nil : ∀ segs : List String, cfgGetSegs [] segs = none
  | [] => rfl
  | [_] => rfl
  | _ :: _ :: _ => rfl

/-- Folding the UNION dedup over incoming elements that are all already
present collects nothing. -/
theorem unionNew_nil_of_all (l0 : List String) (inc : List String)
    (h : inc.all (fun e => l0.contains e) = true) : unionNew l0 inc = [] := by
  have main : ∀ (inc' : List String), inc'.all (fun e => l0.contains e) = true →
      ∀ acc, inc'.foldl
        (fun acc e => if l0.contains e || acc.contains e then acc else acc ++ [e]) acc = acc := by
    intro inc'
    induction inc' with
    | nil => intro _ acc; rfl
    | cons e t ih =>
        intro hall acc
        rw [List.all_cons, Bool.and_eq_true] at hall
        rw [List.foldl_cons, if_pos (by rw [hall.1, Bool.true_or])]
        exact ih hall.2 acc
  exact main inc h []

/-- FALLBACK onto a path that is already present leaves the modelled tree
untouched. -/
theorem cfgAssignSegs_fallback_present :
    ∀ (segs : List String) (es : CEntries) (fp : String) (v : CVal),
      (∀ s ∈ segs, s ≠ "") → (cfgGetSegs es segs).isSome = true →
      cfgAssignSegs es fp segs v .FALLBACK = .ok es
  | [], es, fp, v, _, hsome => by simp [cfgGetSegs] at hsome
  | [k], es, fp, v, hval, hsome => by
      have hk : k ≠ "" := hval k (by simp)
      cases hl : lookupC es k with
      | none => rw [cfgGetSegs, hl] at hsome; simp at hsome
      | some p =>
          obtain ⟨v0, m0⟩ := p
          simp only [cfgAssignSegs, if_neg hk, hl]
  | k :: r :: rs, es, fp, v, hval, hsome => by
      have hk : k ≠ "" := hval k (by simp)
      rw [cfgGetSegs] at hsome
      cases hl : lookupC es k with
      | none => rw [hl] at hsome; simp at hsome
      | some p =>
          obtain ⟨v0, m0⟩ := p
          cases v0 with
          | scalar s => rw [hl] at hsome; simp at hsome
          | vlist l => rw [hl] at hsome; simp at hsome
          | csect ce =>
              rw [hl] at hsome
              have ih := cfgAssignSegs_fallback_present (r :: rs) ce fp v
                (fun s hs => hval s (by simp [hs])) hsome
              simp only [cfgAssignSegs, if_neg hk, hl, ih]
              rw [setC_self es k (.csect ce) m0 hl]

/-- UNION whose incoming elements are all already contained in the existing
list value leaves the modelled tree untouched. -/
theorem cfgAssignSegs_union_subset :
    ∀ (segs : List String) (es : CEntries) (fp : String) (v : CVal) (l0 : List String)
      (m0 : AssignmentMode),
      (∀ s ∈ segs, s ≠ "") → cfgGetSegs es segs = some (.vlist l0, m0) →
      (cElems v).all (fun e => l0.contains e) = true →
      cfgAssignSegs es fp segs v .UNION = .ok es
  | [], es, fp, v, l0, m0, _, hget, _ => by simp [cfgGetSegs] at hget
  | [k], es, fp, v, l0, m0, hval, hget, hall => by
      have hk : k ≠ "" := hval k (by simp)
      rw [cfgGetSegs] at hget
      simp only [cfgAssignSegs, if_neg hk, hget]
      rw [unionNew_nil_of_all l0 (cElems v) hall]
      simp
  | k :: r :: rs, es, fp, v, l0, m0, hval, hget, hall => by
      have hk : k ≠ "" := hval k (by simp)
      rw [cfgGetSegs] at hget
      cases hl : lookupC es k with
      | none => rw [hl] at hget; simp at hget
      | some p =>
          obtain ⟨v0, m1⟩ := p
          cases v0 with
          | scalar s => rw [hl] at hget; simp at hget
          | vlist l => rw [hl] at hget; simp at hget
          | csect ce =>
              rw [hl] at hget
              have ih := cfgAssignSegs_union_subset (r :: rs) ce fp v l0 m0
                (fun s hs => hval s (by simp [hs])) hget hall
              simp only [cfgAssignSegs, if_neg hk, hl, ih]
              rw [setC_self es k (.csect ce) m1 hl]

/-- C1: the boolean returned by the modelled `Config.assign` is true
exactly when the call changed the tree; in particular a FALLBACK onto an
already-present path and a UNION whose incoming elements are all already
present leave the tree unchanged and return false. -/
theorem claim_C1_assign_changed (es : CEntries) (path raw : String) (m : AssignmentMode)
    (es' : CEntries) (b : Bool)
    (h : cfgAssign es path raw m = .ok (es', b)) :
    (b = true ↔ es' ≠ es) ∧
    (m = .FALLBACK → (∀ s ∈ splitOnDot path, s ≠ "") →
      (cfgGetSegs es (splitOnDot path)).isSome = true → es' = es ∧ b = false) ∧
    (∀ l0 m0 v, m = .UNION → (∀ s ∈ splitOnDot path, s ≠ "") →
      cfgGetSegs es (splitOnDot path) = some (.vlist l0, m0) →
      cfgExplode raw = some v → (cElems v).all (fun e => l0.contains e) = true →
      es' = es ∧ b = false) := by
  unfold cfgAssign at h
  cases hexp : cfgExplode raw with
  | none => rw [hexp] at h; exact absurd h (by simp)
  | some v0 =>
      rw [hexp] at h
      simp only at h
      cases hseg : cfgAssignSegs es path (splitOnDot path) v0 m with
      | error e => rw [hseg] at h; exact absurd h (by simp)
      | ok es'' =>
          rw [hseg] at h
          simp only [Except.ok.injEq, Prod.mk.injEq] at h
          obtain ⟨rfl, rfl⟩ := h
          refine ⟨?_, ?_, ?_⟩
          · constructor
            · intro hb hne
              rw [hne, beqCEntries_refl] at hb
              simp at hb
            · intro hne
              cases hbe : beqCEntries es'' es with
              | true => exact absurd ((beqCEntries_iff _ _).mp hbe) hne
              | false => simp
          · rintro rfl hvalid hsome
            have := cfgAssignSegs_fallback_present (splitOnDot path) es path v0 hvalid hsome
            rw [hseg] at this
            have heq : es'' = es := by simpa using this
            subst heq
            exact ⟨rfl, by rw [beqCEntries_refl]; rfl⟩
          · rintro l0 m0 v rfl hvalid hget hv hall
            have hv' : v0 = v := by simpa using hv
            subst hv'
            have := cfgAssignSegs_union_subset (splitOnDot path) es path v0 l0 m0 hvalid hget hall
            rw [hseg] at this
            have heq : es'' = es := by simpa using this
            subst heq
            exact ⟨rfl, by rw [beqCEntries_refl]; rfl⟩

/-- Witness for C1: FALLBACK onto the present key `k` reports no change,
and a SET of a fresh key reports a change. -/
theorem claim_C1_witness :
    (([("k", CVal.scalar "a", AssignmentMode.SET)] : CEntries) =
      [("k", CVal.scalar "a", AssignmentMode.SET)] ∧ (false : Bool) = false) ∧
    ((true : Bool) = true ↔
      ([("k", CVal.scalar "v", AssignmentMode.SET)] : CEntries) ≠ []) :=
  ⟨(claim_C1_assign_changed [("k", CVal.scalar "a", .SET)] "k" "b" .FALLBACK
      [("k", CVal.scalar "a", .SET)] false rfl).2.1 rfl (by decide) rfl,
    (claim_C1_assign_changed [] "k" "v" .SET
      [("k", CVal.scalar "v", .SET)] true rfl).1⟩

/-- The structural content of C5 on the modelled write: a successful
`cfgAssignSegs` records mode UNION on every intermediate prefix it had to
create, records the assignment's own mode on a final key it had to
create, and re-records it on a final key it overwrote — with REPLACE or
APPEND always, with UNION whenever at least one incoming element was
new. -/
theorem cfgAssignSegs_modes :
    ∀ (segs : List String) (es : CEntries) (fp : String) (v : CVal) (m : AssignmentMode)
      (es' : CEntries), cfgAssignSegs es fp segs v m = .ok es' →
      (∀ i, 0 < i → i < segs.length → cfgGetSegs es (segs.take i) = none →
        ∃ ce, cfgGetSegs es' (segs.take i) = some (.csect ce, .UNION)) ∧
      (cfgGetSegs es segs = none → ∃ v', cfgGetSegs es' segs = some (v', m)) ∧
      (∀ w0 wm, cfgGetSegs es segs = some (w0, wm) →
        (m = .REPLACE ∨ m = .APPEND ∨
          (m = .UNION ∧ unionNew (cElems w0) (cElems v) ≠ [])) →
        ∃ v', cfgGetSegs es' segs = some (v', m))
  | [], es, fp, v, m, es', h => by simp [cfgAssignSegs] at h
  | [k], es, fp, v, m, es', h => by
      refine ⟨?_, ?_, ?_⟩
      · intro i hi0 hiLen _
        simp only [List.length_cons, List.length_nil] at hiLen
        omega
      · intro hnone
        rw [cfgGetSegs] at hnone
        by_cases hk : k = ""
        · simp only [cfgAssignSegs, if_pos hk] at h
          exact absurd h (by simp)
        · simp only [cfgAssignSegs, if_neg hk, hnone] at h
          simp only [Except.ok.injEq] at h
          subst h
          exact ⟨_, by rw [cfgGetSegs, lookupC_setC_self]⟩
      · intro w0 wm hget hm
        rw [cfgGetSegs] at hget
        by_cases hk : k = ""
        · simp only [cfgAssignSegs, if_pos hk] at h
          exact absurd h (by simp)
        · rcases hm with rfl | rfl | ⟨rfl, hne⟩
          · simp only [cfgAssignSegs, if_neg hk, hget] at h
            simp only [Except.ok.injEq] at h
            subst h
            exact ⟨v, by rw [cfgGetSegs, lookupC_setC_self]⟩
          · cases w0 with
            | csect ce =>
                simp only [cfgAssignSegs, if_neg hk, hget] at h
                exact absurd h (by simp)
            | scalar s0 =>
                simp only [cfgAssignSegs, if_neg hk, hget] at h
                simp only [Except.ok.injEq] at h
                subst h
                exact ⟨_, by rw [cfgGetSegs, lookupC_setC_self]⟩
            | vlist l0 =>
                simp only [cfgAssignSegs, if_neg hk, hget] at h
                simp only [Except.ok.injEq] at h
                subst h
                exact ⟨_, by rw [cfgGetSegs, lookupC_setC_self]⟩
          · cases w0 with
            | csect ce =>
                simp only [cfgAssignSegs, if_neg hk, hget] at h
                exact absurd h (by simp)
            | scalar s0 =>
                simp only [cfgAssignSegs, if_neg hk, hget] at h
                rw [if_neg (show unionNew [s0] (cElems v) ≠ [] from hne)] at h
                simp only [Except.ok.injEq] at h
                subst h
                exact ⟨_, by rw [cfgGetSegs, lookupC_setC_self]⟩
            | vlist l0 =>
                simp only [cfgAssignSegs, if_neg hk, hget] at h
                rw [if_neg (show unionNew l0 (cElems v) ≠ [] from hne)] at h
                simp only [Except.ok.injEq] at h
                subst h
                exact ⟨_, by rw [cfgGetSegs, lookupC_setC_self]⟩
  | k :: r :: rs, es, fp, v, m, es', h => by
      by_cases hk : k = ""
      · simp only [cfgAssignSegs, if_pos hk] at h
        exact absurd h (by simp)
      cases hl : lookupC es k with
      | none =>
          simp only [cfgAssignSegs, if_neg hk, hl] at h
          cases hrec : cfgAssignSegs [] fp (r :: rs) v m with
          | error e => rw [hrec] at h; exact absurd h (by simp)
          | ok ce' =>
              rw [hrec] at h
              simp only [Except.ok.injEq] at h
              subst h
              obtain ⟨ih1, ih2, ih3⟩ := cfgAssignSegs_modes (r :: rs) [] fp v m ce' hrec
              refine ⟨?_, ?_, ?_⟩
              · intro i hi0 hiLen hnone
                cases i with
                | zero => omega
                | succ j =>
                    cases j with
                    | zero =>
                        rw [List.take_succ_cons, List.take_zero]
                        exact ⟨ce', by rw [cfgGetSegs, lookupC_setC_self]⟩
                    | succ j' =>
                        rw [List.take_succ_cons, List.take_succ_cons]
                        simp only [cfgGetSegs, lookupC_setC_self]
                        have hlen : j' + 1 < (r :: rs).length := by
                          simp only [List.length_cons] at hiLen ⊢
                          omega
                        have := ih1 (j' + 1) (by omega) hlen (cfgGetSegs_nil _)
                        rw [List.take_succ_cons] at this
                        exact this
              · intro _
                obtain ⟨v', hv'⟩ := ih2 (cfgGetSegs_nil _)
                refine ⟨v', ?_⟩
                simp only [cfgGetSegs, lookupC_setC_self]
                exact hv'
              · intro w0 wm hget hm
                simp only [cfgGetSegs, hl] at hget
                exact absurd hget (by simp)
      | some p =>
          obtain ⟨v0, m0⟩ := p
          cases v0 with
          | scalar s =>
              simp only [cfgAssignSegs, if_neg hk, hl] at h
              exact absurd h (by simp)
          | vlist l =>
              simp only [cfgAssignSegs, if_neg hk, hl] at h
              exact absurd h (by simp)
          | csect ce =>
              simp only [cfgAssignSegs, if_neg hk, hl] at h
              cases hrec : cfgAssignSegs ce fp (r :: rs) v m with
              | error e => rw [hrec] at h; exact absurd h (by simp)
              | ok ce'' =>
                  rw [hrec] at h
                  simp only [Except.ok.injEq] at h
                  subst h
                  obtain ⟨ih1, ih2, ih3⟩ := cfgAssignSegs_modes (r :: rs) ce fp v m ce'' hrec
                  refine ⟨?_, ?_, ?_⟩
                  · intro i hi0 hiLen hnone
                    cases i with
                    | zero => omega
                    | succ j =>
                        cases j with
                        | zero =>
                            rw [List.take_succ_cons, List.take_zero, cfgGetSegs, hl] at hnone
                            exact absurd hnone (by simp)
                        | succ j' =>
                            rw [List.take_succ_cons, List.take_succ_cons] at hnone ⊢
                            simp only [cfgGetSegs, hl] at hnone
                            simp only [cfgGetSegs, lookupC_setC_self]
                            have hlen : j' + 1 < (r :: rs).length := by
                              simp only [List.length_cons] at hiLen ⊢
                              omega
                            have := ih1 (j' + 1) (by omega) hlen (by
                              rw [List.take_succ_cons]
                              exact hnone)
                            rw [List.take_succ_cons] at this
                            exact this
                  · intro hnone
                    simp only [cfgGetSegs, hl] at hnone
                    obtain ⟨v', hv'⟩ := ih2 hnone
                    refine ⟨v', ?_⟩
                    simp only [cfgGetSegs, lookupC_setC_self]
                    exact hv'
                  · intro w0 wm hget hm
                    simp only [cfgGetSegs, hl] at hget
                    obtain ⟨v', hv'⟩ := ih3 w0 wm hget hm
                    refine ⟨v', ?_⟩
                    simp only [cfgGetSegs, lookupC_setC_self]
                    exact hv'

/-- C5: in the modelled `Config` tree every write records, next to the
value of each direct key, the assignment mode that wrote it: a successful
`Config.assign` stores its own mode on a final key that was absent, every
intermediate section node it creates implicitly while resolving a longer
path is recorded with mode UNION, never SET, and on a final key that was
already present the record is rewritten to the new assignment's mode
whenever the write actually touches the key — always for REPLACE and
APPEND, and for a UNION that appends at least one new element (a no-op
UNION and a FALLBACK leave the previous record in place). -/
theorem claim_C5_mode_record (es : CEntries) (path raw : String) (m : AssignmentMode)
    (es' : CEntries) (b : Bool)
    (h : cfgAssign es path raw m = .ok (es', b)) :
    (∀ i, 0 < i → i < (splitOnDot path).length →
      cfgGetSegs es ((splitOnDot path).take i) = none →
      ∃ ce, cfgGetSegs es' ((splitOnDot path).take i) = some (.csect ce, .UNION)) ∧
    (cfgGetSegs es (splitOnDot path) = none →
      ∃ v', cfgGetSegs es' (splitOnDot path) = some (v', m)) ∧
    (∀ w0 wm v, cfgGetSegs es (splitOnDot path) = some (w0, wm) →
      cfgExplode raw = some v →
      (m = .REPLACE ∨ m = .APPEND ∨
        (m = .UNION ∧ unionNew (cElems w0) (cElems v) ≠ [])) →
      ∃ v', cfgGetSegs es' (splitOnDot path) = some (v', m)) := by
  unfold cfgAssign at h
  cases hexp : cfgExplode raw with
  | none => rw [hexp] at h; exact absurd h (by simp)
  | some v0 =>
      rw [hexp] at h
      simp only at h
      cases hseg : cfgAssignSegs es path (splitOnDot path) v0 m with
      | error e => rw [hseg] at h; exact absurd h (by simp)
      | ok es'' =>
          rw [hseg] at h
          simp only [Except.ok.injEq, Prod.mk.injEq] at h
          obtain ⟨rfl, -⟩ := h
          obtain ⟨p1, p2, p3⟩ := cfgAssignSegs_modes (splitOnDot path) es path v0 m es'' hseg
          refine ⟨p1, p2, ?_⟩
          intro w0 wm v hget hv hm
          have hvv : v0 = v := by simpa using hv
          subst hvv
          exact p3 w0 wm hget hm

/-- Witness for C5: assigning `a.b = v` into an empty tree creates the
intermediate section `a` with recorded mode UNION and the leaf `b` with
recorded mode SET; a REPLACE assignment onto the existing key `k`
(previously written with SET) rewrites its recorded mode to REPLACE. -/
theorem claim_C5_witness :
    (∃ ce, cfgGetSegs [("a", CVal.csect [("b", CVal.scalar "v", AssignmentMode.SET)],
        AssignmentMode.UNION)] ((splitOnDot "a.b").take 1) =
      some (.csect ce, AssignmentMode.UNION)) ∧
    (∃ v', cfgGetSegs [("a", CVal.csect [("b", CVal.scalar "v", AssignmentMode.SET)],
        AssignmentMode.UNION)] (splitOnDot "a.b") = some (v', AssignmentMode.SET)) ∧
    (∃ v', cfgGetSegs [("k", CVal.scalar "b", AssignmentMode.REPLACE)] (splitOnDot "k") =
      some (v', AssignmentMode.REPLACE)) :=
  ⟨(claim_C5_mode_record [] "a.b" "v" .SET
      [("a", CVal.csect [("b", CVal.scalar "v", .SET)], .UNION)] true rfl).1
      1 (by decide) (by decide) rfl,
    (claim_C5_mode_record [] "a.b" "v" .SET
      [("a", CVal.csect [("b", CVal.scalar "v", .SET)], .UNION)] true rfl).2.1 rfl,
    (claim_C5_mode_record [("k", CVal.scalar "a", .SET)] "k" "b" .REPLACE
      [("k", CVal.scalar "b", .REPLACE)] true rfl).2.2
      (CVal.scalar "a") .SET (CVal.scalar "b") rfl rfl (Or.inl rfl)⟩

/-! Lemmas about `pyStrip`, leading to the continuation-joining claim. -/

theorem pyStripList_eq (l : List Char) :
    pyStripList l = List.rdropWhile pyIsSpace (List.dropWhile pyIsSpace l) := rfl

theorem dropWhile_head_false (p : Char → Bool) :
    ∀ (l : List Char) (c : Char) (t : List Char), List.dropWhile p l = c :: t → p c = false := by
  intro l
  induction l with
  | nil => intro c t h; simp [List.dropWhile] at h
  | cons a l ih =>
      intro c t h
      rw [List.dropWhile_cons] at h
      by_cases hp : p a
      · rw [if_pos hp] at h; exact ih c t h
      · rw [if_neg hp] at h
        obtain ⟨rfl, -⟩ := List.cons.injEq .. |>.mp h
        exact Bool.eq_false_iff.mpr hp

theorem dropWhile_eq_self_of_head (p : Char → Bool) (l : List Char)
    (h : ∀ c t, l = c :: t → p c = false) : List.dropWhile p l = l := by
  cases l with
  | nil => rfl
  | cons a t => rw [List.dropWhile_cons, if_neg (by rw [h a t rfl]; simp)]

theorem pyStripList_idem (l : List Char) : pyStripList (pyStripList l) = pyStripList l := by
  have h1 : List.dropWhile pyIsSpace (pyStripList l) = pyStripList l := by
    apply dropWhile_eq_self_of_head
    intro c t hct
    have hpre : pyStripList l <+: List.dropWhile pyIsSpace l := by
      rw [pyStripList_eq]
      exact List.rdropWhile_prefix _ _
    obtain ⟨rest, hrest⟩ := hpre
    refine dropWhile_head_false pyIsSpace l c (t ++ rest) ?_
    rw [← hrest, hct]
    simp
  show List.rdropWhile pyIsSpace (List.dropWhile pyIsSpace (pyStripList l)) = pyStripList l
  rw [h1]
  show List.rdropWhile pyIsSpace (List.rdropWhile pyIsSpace (List.dropWhile pyIsSpace l)) =
    List.rdropWhile pyIsSpace (List.dropWhile pyIsSpace l)
  exact List.rdropWhile_idempotent _ _

theorem trimmed_drop (l : List Char) (h : pyStripList l = l) :
    List.dropWhile pyIsSpace l = l := by
  have hu : List.dropWhile pyIsSpace l <:+ l := List.dropWhile_suffix _
  have h1 : l.length ≤ (List.dropWhile pyIsSpace l).length := by
    have := (List.rdropWhile_prefix pyIsSpace (List.dropWhile pyIsSpace l)).length_le
    rw [← pyStripList_eq, h] at this
    exact this
  exact hu.eq_of_length (Nat.le_antisymm hu.length_le h1)

theorem trimmed_rdrop (l : List Char) (h : pyStripList l = l) :
    List.rdropWhile pyIsSpace l = l := by
  have hd := trimmed_drop l h
  rw [pyStripList_eq, hd] at h
  exact h

theorem trimmed_head_false (c : Char) (t : List Char) (h : pyStripList (c :: t) = c :: t) :
    pyIsSpace c = false := by
  have hd := trimmed_drop _ h
  rw [List.dropWhile_cons] at hd
  by_cases hp : pyIsSpace c
  · rw [if_pos hp] at hd
    have hlen := congrArg List.length hd
    have h2 : (List.dropWhile pyIsSpace t).length ≤ t.length :=
      (List.dropWhile_suffix _).length_le
    simp only [List.length_cons] at hlen
    omega
  · exact Bool.eq_false_iff.mpr hp

theorem pyStripList_sep (a b : List Char) (ha : pyStripList a = a) (ha0 : a ≠ [])
    (hb : pyStripList b = b) (hb0 : b ≠ []) :
    pyStripList (a ++ ' ' :: b) = a ++ ' ' :: b := by
  rw [pyStripList_eq]
  have h1 : List.dropWhile pyIsSpace (a ++ ' ' :: b) = a ++ ' ' :: b := by
    cases a with
    | nil => exact absurd rfl ha0
    | cons a0 a' =>
        rw [List.cons_append, List.dropWhile_cons,
          if_neg (by rw [trimmed_head_false a0 a' ha]; simp)]
  rw [h1]
  rw [List.rdropWhile_eq_self_iff]
  intro hl
  rw [List.getLast_append' a (' ' :: b) (by simp)]
  rw [List.getLast_cons hb0]
  have := List.rdropWhile_eq_self_iff.mp (trimmed_rdrop b hb) hb0
  exact this

theorem pyStripList_space (b : List Char) : pyStripList (' ' :: b) = pyStripList b := by
  rw [pyStripList_eq, pyStripList_eq, List.dropWhile_cons, if_pos (by norm_num [pyIsSpace])]

theorem strExt (s t : String) (h : s.data = t.data) : s = t := by
  cases s; cases t; exact congrArg String.mk h

theorem data_ne_nil (s : String) (h : s ≠ "") : s.data ≠ [] := by
  intro hd
  exact h (strExt s "" hd)

theorem data_append_sep (a b : String) : (a ++ " " ++ b).data = a.data ++ ' ' :: b.data := by
  rw [String.data_append, String.data_append, List.append_assoc]
  rfl

theorem pyStrip_sep (a b : String) (ha : pyStrip a = a) (ha0 : a ≠ "")
    (hb : pyStrip b = b) (hb0 : b ≠ "") : pyStrip (a ++ " " ++ b) = a ++ " " ++ b := by
  apply strExt
  show pyStripList (a ++ " " ++ b).data = (a ++ " " ++ b).data
  rw [data_append_sep]
  exact pyStripList_sep a.data b.data (congrArg String.data ha) (data_ne_nil a ha0)
    (congrArg String.data hb) (data_ne_nil b hb0)

theorem pyStrip_space_pre (b : String) : pyStrip (" " ++ b) = pyStrip b := by
  apply strExt
  show pyStripList (" " ++ b).data = pyStripList b.data
  rw [String.data_append]
  exact pyStripList_space b.data

theorem sep_ne_empty (a b : String) : a ++ " " ++ b ≠ "" := by
  intro h
  have := congrArg String.data h
  rw [data_append_sep] at this
  simp at this

theorem pyStrip_idem (s : String) : pyStrip (pyStrip s) = pyStrip s := by
  apply strExt
  exact pyStripList_idem s.data

theorem empty_append_str (s : String) : "" ++ s = s := by
  apply strExt
  rw [String.data_append]
  rfl

theorem foldl_contStep_pre (p : String) :
    ∀ (frags : List String) (w : String),
      List.foldl contStep (p ++ w) frags = p ++ List.foldl contStep w frags := by
  intro frags
  induction frags with
  | nil => intro w; rfl
  | cons f fr ih =>
      intro w
      rw [List.foldl_cons, List.foldl_cons]
      by_cases hx : pyStrip f = ""
      · rw [show contStep (p ++ w) f = p ++ w by simp [contStep, hx],
          show contStep w f = w by simp [contStep, hx]]
        exact ih w
      · rw [show contStep (p ++ w) f = (p ++ w) ++ " " ++ pyStrip f by simp [contStep, hx],
          show contStep w f = w ++ " " ++ pyStrip f by simp [contStep, hx], ← ih]
        congr 1
        simp only [String.append_assoc]

theorem joinSp_merge (a b : String) (L : List String) :
    joinSp ((a ++ " " ++ b) :: L) = a ++ " " ++ joinSp (b :: L) := by
  cases L with
  | nil => rfl
  | cons c L' =>
      show (a ++ " " ++ b) ++ " " ++ joinSp (c :: L') = a ++ " " ++ (b ++ " " ++ joinSp (c :: L'))
      simp only [String.append_assoc]

theorem foldl_contStep_exact :
    ∀ (frags : List String) (v0 : String), pyStrip v0 = v0 → v0 ≠ "" →
      List.foldl contStep v0 frags =
        joinSp ((v0 :: frags.map pyStrip).filter (fun s => s ≠ "")) ∧
      pyStrip (List.foldl contStep v0 frags) = List.foldl contStep v0 frags ∧
      List.foldl contStep v0 frags ≠ ""
  | [], v0, hv, h0 => by
      refine ⟨?_, hv, h0⟩
      simp [joinSp, h0]
  | f :: fr, v0, hv, h0 => by
      by_cases hx : pyStrip f = ""
      · have hstep : contStep v0 f = v0 := by simp [contStep, hx]
        rw [List.foldl_cons, hstep]
        obtain ⟨i1, i2, i3⟩ := foldl_contStep_exact fr v0 hv h0
        refine ⟨?_, i2, i3⟩
        rw [i1]
        have hlist : ((v0 :: (f :: fr).map pyStrip).filter (fun s => s ≠ "")) =
            ((v0 :: fr.map pyStrip).filter (fun s => s ≠ "")) := by
          rw [List.map_cons, hx]
          simp [List.filter_cons]
        rw [hlist]
      · have hstep : contStep v0 f = v0 ++ " " ++ pyStrip f := by simp [contStep, hx]
        have hx' : pyStrip (pyStrip f) = pyStrip f := pyStrip_idem f
        have hv' : pyStrip (v0 ++ " " ++ pyStrip f) = v0 ++ " " ++ pyStrip f :=
          pyStrip_sep v0 (pyStrip f) hv h0 hx' hx
        have h0' : v0 ++ " " ++ pyStrip f ≠ "" := sep_ne_empty v0 (pyStrip f)
        obtain ⟨ih1, ih2, ih3⟩ := foldl_contStep_exact fr (v0 ++ " " ++ pyStrip f) hv' h0'
        rw [List.foldl_cons, hstep]
        refine ⟨?_, ih2, ih3⟩
        rw [ih1]
        have hfL : (((v0 ++ " " ++ pyStrip f) :: fr.map pyStrip).filter (fun s => s ≠ "")) =
            (v0 ++ " " ++ pyStrip f) :: (fr.map pyStrip).filter (fun s => s ≠ "") := by
          rw [List.filter_cons, if_pos (by simp [h0'])]
        have hauxR : (pyStrip f :: fr.map pyStrip).filter (fun s => s ≠ "") =
            pyStrip f :: (fr.map pyStrip).filter (fun s => s ≠ "") := by
          rw [List.filter_cons, if_pos (by simp [hx])]
        have hfR : ((v0 :: (f :: fr).map pyStrip).filter (fun s => s ≠ "")) =
            v0 :: pyStrip f :: (fr.map pyStrip).filter (fun s => s ≠ "") := by
          rw [List.map_cons, List.filter_cons, hauxR, if_pos (by simp [h0])]
        rw [hfL, hfR, joinSp_merge]
        rfl

theorem pyStrip_foldl_contStep_empty :
    ∀ frags : List String,
      pyStrip (List.foldl contStep "" frags) =
        joinSp ((frags.map pyStrip).filter (fun s => s ≠ ""))
  | [] => rfl
  | f :: fr => by
      by_cases hx : pyStrip f = ""
      · have hstep : contStep "" f = "" := by simp [contStep, hx]
        rw [List.foldl_cons, hstep, List.map_cons, List.filter_cons, if_neg (by simp [hx])]
        exact pyStrip_foldl_contStep_empty fr
      · have hstep : contStep "" f = " " ++ pyStrip f := by
          simp only [contStep, if_neg hx]
          exact congrArg (fun y => y ++ pyStrip f) (empty_append_str " ")
        rw [List.foldl_cons, hstep, foldl_contStep_pre " " fr (pyStrip f), pyStrip_space_pre]
        obtain ⟨e1, e2, -⟩ := foldl_contStep_exact fr (pyStrip f) (pyStrip_idem f) hx
        rw [e2, e1, List.map_cons, List.filter_cons, if_pos (by simp [hx])]

/-- C7: accumulating value fragments with `continue_assignment`'s step
(config.py lines 379-384, identically context.py lines 132-135) produces,
up to the stripping that the committing `assign` performs anyway, exactly
the non-empty trimmed fragments joined with one separating space each —
fragments that are empty after trimming contribute nothing — and therefore
committing the accumulated value writes the same thing as the equivalent
single-line assignment whose value is that join. -/
theorem claim_C7_continuation (v0 : String) (frags : List String) (hv : pyStrip v0 = v0) :
    pyStrip (List.foldl contStep v0 frags) =
      joinSp ((v0 :: frags.map pyStrip).filter (fun s => s ≠ "")) ∧
    ∀ (opts : Opts) (sec : String) (es : Entries) (k : String) (m : AssignmentMode),
      dictAssign opts sec es k (.str (List.foldl contStep v0 frags)) m =
      dictAssign opts sec es k
        (.str (joinSp ((v0 :: frags.map pyStrip).filter (fun s => s ≠ "")))) m := by
  have h1 : pyStrip (List.foldl contStep v0 frags) =
      joinSp ((v0 :: frags.map pyStrip).filter (fun s => s ≠ "")) := by
    by_cases h0 : v0 = ""
    · subst h0
      have hf : (("" :: frags.map pyStrip).filter (fun s => s ≠ "")) =
          ((frags.map pyStrip).filter (fun s => s ≠ "")) := by
        rw [List.filter_cons, if_neg (by simp)]
      rw [hf]
      exact pyStrip_foldl_contStep_empty frags
    · obtain ⟨e1, e2, -⟩ := foldl_contStep_exact frags v0 hv h0
      rw [e2]
      exact e1
  refine ⟨h1, ?_⟩
  have hJ : pyStrip (joinSp ((v0 :: frags.map pyStrip).filter (fun s => s ≠ ""))) =
      joinSp ((v0 :: frags.map pyStrip).filter (fun s => s ≠ "")) := by
    rw [← h1]
    exact pyStrip_idem _
  have hab : pyStrip (List.foldl contStep v0 frags) =
      pyStrip (joinSp ((v0 :: frags.map pyStrip).filter (fun s => s ≠ ""))) :=
    h1.trans hJ.symm
  intro opts sec es k m
  have hpv : processValue opts (.str (List.foldl contStep v0 frags)) =
      processValue opts (.str (joinSp ((v0 :: frags.map pyStrip).filter (fun s => s ≠ "")))) := by
    simp only [processValue]
    rw [hab]
  simp only [dictAssign, Val.isDict]
  rw [hpv]

/-- Witness for C7: `key = a` continued by the fragments `"b "`, `""` and
`"c"` accumulates to `a b c`, and committing it equals committing the
one-line value. -/
theorem claim_C7_witness :
    pyStrip (List.foldl contStep "a" ["b ", "", "c"]) =
      joinSp ((("a" :: ["b ", "", "c"].map pyStrip)).filter (fun s => s ≠ "")) ∧
    dictAssign {} "s" [] "k" (.str (List.foldl contStep "a" ["b ", "", "c"])) .SET =
      dictAssign {} "s" [] "k"
        (.str (joinSp ((("a" :: ["b ", "", "c"].map pyStrip)).filter (fun s => s ≠ "")))) .SET :=
  ⟨(claim_C7_continuation "a" ["b ", "", "c"] rfl).1,
    (claim_C7_continuation "a" ["b ", "", "c"] rfl).2 {} "s" [] "k" .SET⟩

end MConf
